import Mathlib

/-
  Verification of the calcomb calendar-combining pipeline
  (source: src/function_app.py).

  The development shallowly embeds the pipeline:
    * `create_uid`            — UID canonicalization (SHA-1 + name-based UUIDv5);
    * `transformEvent`        — the per-event filter/transform steps of `get_cal`;
    * `runSources` / `get_cal`— the per-source loop with show/hide selection,
                                configuration validation, fetching (as an oracle)
                                and duplicate staging;
    * `merge_recurring_sets`  — the RELATED-TO recurrence-set merger.

  Machine integers do not occur (Python ints are unbounded); 32-bit words inside
  SHA-1 are `Nat` kept below 2^32 by explicit `% 2^32`.  Date-only values are
  modelled as integer day numbers, date-times as integer wall-clock minutes plus
  an optional UTC-offset (minutes); this is enough resolution for every
  timedelta the program constructs (minutes and whole days).
-/

set_option maxRecDepth 100000

/-! ## Bytes, UTF-8, SHA-1, UUIDv5 (the collaborators of `create_uid`) -/

/-- UTF-8 encoding of one Unicode code point, as byte values (< 256). -/
def encodeChar (c : Char) : List Nat :=
  let n := c.toNat
  if n < 0x80 then [n]
  else if n < 0x800 then [0xC0 + n / 64, 0x80 + n % 64]
  else if n < 0x10000 then [0xE0 + n / 4096, 0x80 + (n / 64) % 64, 0x80 + n % 64]
  else [0xF0 + n / 262144, 0x80 + (n / 4096) % 64, 0x80 + (n / 64) % 64, 0x80 + n % 64]


/-- UTF-8 encoding of a string (Python's `str.encode("utf-8")`). -/
def utf8Encode (s : String) : List Nat :=
  s.data.flatMap encodeChar


/-- Rotate a 32-bit word left by `n` bits. -/
def rotl (n x : Nat) : Nat :=
  ((x <<< n) ||| (x >>> (32 - n))) % 2 ^ 32


/-- Big-endian byte representation of `n` on `k` bytes. -/
def beBytes (k n : Nat) : List Nat :=
  (List.range k).map (fun i => n / 256 ^ (k - 1 - i) % 256)


/-- SHA-1 message padding: append 0x80, zero bytes, and the 64-bit big-endian
bit length, reaching a multiple of 64 bytes. -/
def sha1Pad (m : List Nat) : List Nat :=
  let l := m.length
  let zeros := (119 - l % 64) % 64
  m ++ [0x80] ++ List.replicate zeros 0 ++ beBytes 8 (8 * l)


/-- Group bytes into big-endian 32-bit words. -/
def toWords : List Nat → List Nat
  | b0 :: b1 :: b2 :: b3 :: rest =>
      (((b0 * 256 + b1) * 256 + b2) * 256 + b3) :: toWords rest
  | _ => []


/-- Group a word list into 16-word blocks (the input length is a multiple of
16 after padding; a shorter tail would be discarded). -/
def toBlocks : List Nat → List (List Nat)
  | w0 :: w1 :: w2 :: w3 :: w4 :: w5 :: w6 :: w7 ::
    w8 :: w9 :: w10 :: w11 :: w12 :: w13 :: w14 :: w15 :: rest =>
      [w0, w1, w2, w3, w4, w5, w6, w7, w8, w9, w10, w11, w12, w13, w14, w15]
        :: toBlocks rest
  | _ => []


/-- Message-schedule expansion: append `fuel` further words, each the 1-bit
left rotation of the xor of the words 3, 8, 14 and 16 positions back. -/
def extendW : Nat → List Nat → List Nat
  | 0, ws => ws
  | fuel + 1, ws =>
      let n := ws.length
      extendW fuel (ws ++ [rotl 1 ((ws.getD (n - 3) 0) ^^^ (ws.getD (n - 8) 0)
        ^^^ (ws.getD (n - 14) 0) ^^^ (ws.getD (n - 16) 0))])


/-- SHA-1 working state: five 32-bit words. -/
structure SHA1St where
  a : Nat
  b : Nat
  c : Nat
  d : Nat
  e : Nat
  deriving DecidableEq, Repr


/-- Bitwise complement of a 32-bit word. -/
def not32 (x : Nat) : Nat := 2 ^ 32 - 1 - x


/-- One SHA-1 round: round index `i`, schedule word `w`. -/
def sha1Round (st : SHA1St) (i w : Nat) : SHA1St :=
  let f :=
    if i < 20 then (st.b &&& st.c) ||| (not32 st.b &&& st.d)
    else if i < 40 then st.b ^^^ st.c ^^^ st.d
    else if i < 60 then (st.b &&& st.c) ||| (st.b &&& st.d) ||| (st.c &&& st.d)
    else st.b ^^^ st.c ^^^ st.d
  let k :=
    if i < 20 then 0x5A827999
    else if i < 40 then 0x6ED9EBA1
    else if i < 60 then 0x8F1BBCDC
    else 0xCA62C1D6
  { a := (rotl 5 st.a + f + st.e + k + w) % 2 ^ 32
    b := st.a
    c := rotl 30 st.b
    d := st.c
    e := st.d }


/-- Compress one 16-word block into the running hash state. -/
def sha1Block (st : SHA1St) (block : List Nat) : SHA1St :=
  let w80 := extendW 64 block
  let t := ((List.range 80).zip w80).foldl (fun s p => sha1Round s p.1 p.2) st
  { a := (st.a + t.a) % 2 ^ 32
    b := (st.b + t.b) % 2 ^ 32
    c := (st.c + t.c) % 2 ^ 32
    d := (st.d + t.d) % 2 ^ 32
    e := (st.e + t.e) % 2 ^ 32 }


/-- The SHA-1 initialization vector. -/
def sha1IV : SHA1St :=
  { a := 0x67452301, b := 0xEFCDAB89, c := 0x98BADCFE, d := 0x10325476, e := 0xC3D2E1F0 }


/-- SHA-1 digest of a byte sequence, as 20 bytes
(the `hashlib.sha1(...).digest()` collaborator of `create_uid`). -/
def sha1 (msg : List Nat) : List Nat :=
  let fin := (toBlocks (toWords (sha1Pad msg))).foldl sha1Block sha1IV
  beBytes 4 fin.a ++ beBytes 4 fin.b ++ beBytes 4 fin.c ++ beBytes 4 fin.d ++ beBytes 4 fin.e


/-- Lowercase hexadecimal digit. -/
def hexDigit (n : Nat) : Char :=
  if n < 10 then Char.ofNat (48 + n) else Char.ofNat (87 + n)


/-- Lowercase hex encoding of bytes (Python's `bytes.hex()`). -/
def bytesToHex (l : List Nat) : String :=
  ⟨l.flatMap (fun b => [hexDigit (b / 16), hexDigit (b % 16)])⟩


/-- The bytes of `uuid.NAMESPACE_DNS` (6ba7b810-9dad-11d1-80b4-00c04fd430c8). -/
def namespaceDNS : List Nat :=
  [0x6b, 0xa7, 0xb8, 0x10, 0x9d, 0xad, 0x11, 0xd1,
   0x80, 0xb4, 0x00, 0xc0, 0x4f, 0xd4, 0x30, 0xc8]


/-- `uuid.uuid5(ns, name)` as 16 bytes: the first 16 bytes of
`SHA1(ns.bytes ++ utf8(name))`, with the version nibble forced to 5 and the
variant bits forced to 10. -/
def uuid5Bytes (ns : List Nat) (name : String) : List Nat :=
  let h := (sha1 (ns ++ utf8Encode name)).take 16
  let h := h.set 6 ((h.getD 6 0) % 16 + 0x50)
  h.set 8 ((h.getD 8 0) % 64 + 0x80)


/-- `str(uuid)`: lowercase hex grouped 8-4-4-4-12. -/
def uuidToString (b : List Nat) : String :=
  bytesToHex (b.take 4) ++ "-" ++ bytesToHex ((b.drop 4).take 2) ++ "-"
    ++ bytesToHex ((b.drop 6).take 2) ++ "-" ++ bytesToHex ((b.drop 8).take 2)
    ++ "-" ++ bytesToHex (b.drop 10)


/-- `create_uid` from src/function_app.py: hex-encode the SHA-1 digest of the
UTF-8 input and feed that string to `uuid.uuid5` against `NAMESPACE_DNS`. -/
def create_uid (input_string : String) : String :=
  uuidToString (uuid5Bytes namespaceDNS (bytesToHex (sha1 (utf8Encode input_string))))


/-! ## Data model

Time values as the pipeline classifies them: Python's `isinstance(x, datetime)`
test (checked first) is the `dateTime` constructor, `isinstance(x, date)` the
`dateOnly` constructor, and anything else — including an absent `DTSTART`
(`None`) once wrapped in `Option` — is unclassifiable.  A `dateTime` carries
wall-clock minutes plus an optional UTC offset in minutes (`none` = naive);
a `dateOnly` carries a day number. -/

inductive TimeVal where
  | dateTime (wall : Int) (tzOffset : Option Int)
  | dateOnly (day : Int)
  | other
  deriving DecidableEq, Repr


/-- An event as the pipeline reads and writes it: the properties
src/function_app.py inspects, each optional exactly as a missing property is.
`rdate`/`exdate` are lists of property lines, each line a list of values
(icalendar stores repeated properties as a list of values). -/
structure Event where
  uid : Option String := none
  summary : Option String := none
  description : Option String := none
  organizer : Option String := none
  dtstart : Option TimeVal := none
  dtend : Option TimeVal := none
  duration : Option Int := none
  rrule : Option String := none
  sequence : Option Int := none
  relatedTo : Option String := none
  recurrenceId : Option TimeVal := none
  rdate : List (List Int) := []
  exdate : List (List Int) := []
  deriving DecidableEq, Repr


/-- One configured source (`calendars` entry): `Id`, `Duration`,
`PadStartMinutes`, `Prefix`, `MakeUnique`, `FilterDuplicates`.  The truthiness
tests `calendar.get(k) is not None and calendar.get(k)` on the two flags are
modelled as `Bool` (absent = false). -/
structure SourceCfg where
  id : Option Int := none
  durationCfg : Option Int := none
  padStartMinutes : Option Int := none
  summaryPrefix : Option String := none
  makeUnique : Bool := false
  filterDuplicates : Bool := false
  deriving DecidableEq, Repr


/-- Python exceptions the pipeline can raise (uncaught by `get_cal`). -/
inductive PyErr where
  | keyError
  | typeError
  deriving DecidableEq, Repr


/-! ## Per-event transformation (`get_cal`, lines 74–200) -/

/-- Python's `f"{calendar.get('Id')}"`. -/
def idStr : Option Int → String
  | none => "None"
  | some i => toString i


/-- `.date()` of the value held by an end property: a `datetime`'s calendar
day (floor of wall minutes over 1440), a `date` itself; comparing anything
else against a date raises `TypeError`, as the comparison on line 85 would. -/
def dateOfVal : TimeVal → Except PyErr Int
  | .dateTime w _ => .ok (Int.fdiv w 1440)
  | .dateOnly d => .ok d
  | .other => .error .typeError


/-- Retention filter (lines 75–86): with an end property present and a
truthy `days_history`, drop (`true`) when the end date is strictly before
`today - days_history` and the event carries no RRULE. -/
def retentionDrop (today daysHistory : Int) (e : Event) : Except PyErr Bool :=
  match e.dtend with
  | some v =>
      if daysHistory ≠ 0 then do
        let d ← dateOfVal v
        pure (decide (d < today - daysHistory) && e.rrule.isNone)
      else pure false
  | none => pure false


/-- Is the start a `datetime` (Python `isinstance(x, datetime)`)? -/
def isDT : Option TimeVal → Bool
  | some (.dateTime _ _) => true
  | _ => false


/-- Duration/end resolution (lines 98–109): a configured source `Duration`
overrides the DURATION property for datetime starts; otherwise an event with
neither end nor duration gets 5 minutes (datetime start) or 1 day (date
start), and is dropped (`none`) when the start is neither. -/
def durationStep (cfg : SourceCfg) (e : Event) : Option Event :=
  match cfg.durationCfg, isDT e.dtstart with
  | some m, true => some { e with duration := some m }
  | _, _ =>
      if e.dtend.isNone && e.duration.isNone then
        match e.dtstart with
        | some (.dateTime _ _) => some { e with duration := some 5 }
        | some (.dateOnly _) => some { e with duration := some 1440 }
        | _ => none
      else some e


/-- Difference of two time values in minutes, raising where Python would
(datetimes subtract only from datetimes of the same awareness, dates from
dates). -/
def subTime : TimeVal → TimeVal → Except PyErr Int
  | .dateTime w2 none, .dateTime w1 none => .ok (w2 - w1)
  | .dateTime w2 (some o2), .dateTime w1 (some o1) => .ok ((w2 - o2) - (w1 - o1))
  | .dateOnly d2, .dateOnly d1 => .ok ((d2 - d1) * 1440)
  | _, _ => .error .typeError


/-- Modelled from the spec: icalendar's computed `Event.duration` read on
line 115 (the icalendar library is not under src/) — the DURATION property if
present, otherwise end minus start. -/
def effDuration (e : Event) : Except PyErr Int :=
  match e.duration with
  | some d => .ok d
  | none =>
      match e.dtend, e.dtstart with
      | some v2, some v1 => subTime v2 v1
      | _, _ => .error .typeError


/-- Start padding (lines 112–115): for a configured `PadStartMinutes` and a
datetime start, line 114 first shifts the start earlier, and only then does
line 115 read `copied_event.duration` — so the computed duration sees the
already-shifted start — and store that value plus the padding as DURATION. -/
def paddingStep (cfg : SourceCfg) (e : Event) : Except PyErr Event :=
  match cfg.padStartMinutes, e.dtstart with
  | some mp, some (.dateTime t tz) => do
      let d1 ← effDuration { e with dtstart := some (.dateTime (t - mp) tz) }
      pure { e with dtstart := some (.dateTime (t - mp) tz), duration := some (d1 + mp) }
  | _, _ => pure e


/-- Summary prefixing (lines 118–120): `copied_event['SUMMARY']` raises
`KeyError` when the property is absent. -/
def prefixStep (cfg : SourceCfg) (e : Event) : Except PyErr Event :=
  match cfg.summaryPrefix with
  | none => pure e
  | some p =>
      match e.summary with
      | none => .error .keyError
      | some s => pure { e with summary := some (p ++ ": " ++ s) }


/-- Is `c` a hexadecimal digit? -/
def isHexDigit (c : Char) : Bool :=
  (48 ≤ c.toNat && c.toNat ≤ 57) || (97 ≤ c.toNat && c.toNat ≤ 102)
    || (65 ≤ c.toNat && c.toNat ≤ 70)


/-- The anchored GUID regex of line 132:
8-4-4-4-12 hex with version nibble 1–5 and variant nibble 8/9/a/b/A/B. -/
def guidMatch (s : String) : Bool :=
  s.data.length = 36 &&
    (List.range 36).all (fun i =>
      let c := s.data.getD i ' '
      if i = 8 || i = 13 || i = 18 || i = 23 then c = '-'
      else if i = 14 then c = '1' || c = '2' || c = '3' || c = '4' || c = '5'
      else if i = 19 then
        c = '8' || c = '9' || c = 'a' || c = 'b' || c = 'A' || c = 'B'
      else isHexDigit c)


/-- UID canonicalization (lines 122–134): `MakeUnique` sources hash
`"<Id>-<UID>"`; others keep an already GUID-shaped UID and hash any other.
`copied_event['UID']` raises `KeyError` when the property is absent. -/
def uidStep (cfg : SourceCfg) (e : Event) : Except PyErr Event :=
  if cfg.makeUnique then
    match e.uid with
    | none => .error .keyError
    | some u => pure { e with uid := some (create_uid (idStr cfg.id ++ "-" ++ u)) }
  else
    match e.uid with
    | none => .error .keyError
    | some u =>
        if guidMatch u then pure e
        else pure { e with uid := some (create_uid u) }


/-- Organizer removal (line 137). -/
def organizerStep (e : Event) : Event :=
  { e with organizer := none }


/-- Blank-line removal and trim for the description (lines 140–144); the
`if copied_event.get("DESCRIPTION"):` guard is falsy for an absent or empty
description. -/
def cleanDesc (s : String) : String :=
  (String.intercalate "\n" ((s.splitOn "\n").filter (fun l => l.trim ≠ ""))).trim


/-- Description cleanup step. -/
def descriptionStep (e : Event) : Event :=
  match e.description with
  | some s => if s ≠ "" then { e with description := some (cleanDesc s) } else e
  | none => e


/-- Timestamp normalization for a single-valued field (lines 149–164):
timezone-aware datetimes go to UTC, everything else passes through. -/
def normTime : TimeVal → TimeVal
  | .dateTime w (some o) => .dateTime (w - o) (some 0)
  | v => v


/-- Normalization step: convert DTSTART/DTEND/RECURRENCE-ID, and flatten the
multi-line RDATE/EXDATE lists into a single property line each
(lines 146–189). -/
def normalizeStep (e : Event) : Event :=
  { e with
    dtstart := e.dtstart.map normTime
    dtend := e.dtend.map normTime
    recurrenceId := e.recurrenceId.map normTime
    rdate := if e.rdate.isEmpty then [] else [e.rdate.flatten]
    exdate := if e.exdate.isEmpty then [] else [e.exdate.flatten] }


/-- The whole per-event pipeline for one kept event of one source:
`.ok none` means the event was silently dropped, `.error` an uncaught Python
exception aborting the request. -/
def transformEvent (cfg : SourceCfg) (today daysHistory : Int) (e : Event) :
    Except PyErr (Option Event) := do
  let drop ← retentionDrop today daysHistory e
  if drop then pure none
  else
    match durationStep cfg e with
    | none => pure none
    | some e1 => do
        let e2 ← paddingStep cfg e1
        let e3 ← prefixStep cfg e2
        let e4 ← uidStep cfg e3
        pure (some (normalizeStep (descriptionStep (organizerStep e4))))


/-! ## The source loop (`get_cal`, lines 28–208)

Fetching is an oracle: each configured source comes paired with the outcome
the network and the calendar parser would produce for it.  `add_missing_timezones`
and non-VEVENT subcomponents are outside the event collection modelled here. -/

/-- What fetching and parsing one source's URL yields. -/
inductive FetchOutcome where
  | fetchFail
  | parseFail
  | events (evs : List Event)
  deriving DecidableEq, Repr


/-- The early-return error responses of `get_cal` (all carried with their
HTTP status). -/
inductive ErrKind where
  | invalidParams
  | configError
  | fetchError (id : Option Int)
  | parseError (id : Option Int)
  deriving DecidableEq, Repr


/-- Source selection (line 62): no lists → all; only `hide` → not hidden;
`show` present → shown (both present was rejected before the loop). -/
def selected (show0 hide : Option (List Int)) (i : Int) : Bool :=
  match show0, hide with
  | none, none => true
  | none, some h => !h.contains i
  | some s, _ => s.contains i


/-- Python dict assignment `m[k] = v` on an insertion-ordered mapping (keys
are unique in a dict): replace the value in place, else append a new entry. -/
def dictSet {α : Type} : List (String × α) → String → α → List (String × α)
  | [], k, v => [(k, v)]
  | (k', v') :: rest, k, v =>
      if k' = k then (k, v) :: rest else (k', v') :: dictSet rest k v


/-- The growing state of the loop: `temp` is `temp_cal` (insertion-ordered
dict keyed by UID), `combined` the events added directly to the combined
calendar.  Events are tagged with the index of the source that produced
them — a ghost annotation used only by the theorems. -/
structure Accum where
  temp : List (String × (Nat × Event)) := []
  combined : List (Nat × Event) := []
  deriving DecidableEq, Repr


/-- Routing of one transformed event (lines 191–200): `FilterDuplicates`
sources stage into the dict under `copied_event['UID']` (which raises on a
missing property), others append directly. -/
def routeEvent (i : Nat) (cfg : SourceCfg) (ev : Event) (acc : Accum) :
    Except PyErr Accum :=
  if cfg.filterDuplicates then
    match ev.uid with
    | some u => .ok { acc with temp := dictSet acc.temp u (i, ev) }
    | none => .error .keyError
  else .ok { acc with combined := acc.combined ++ [(i, ev)] }


/-- The per-source event loop (lines 74–200): transform each event in order,
route the kept ones; any exception aborts. -/
def processEvents (i : Nat) (cfg : SourceCfg) (today daysHistory : Int) :
    List Event → Accum → Except PyErr Accum
  | [], acc => .ok acc
  | e :: es, acc => do
      let o ← transformEvent cfg today daysHistory e
      match o with
      | none => processEvents i cfg today daysHistory es acc
      | some ev => do
          let acc' ← routeEvent i cfg ev acc
          processEvents i cfg today daysHistory es acc'


/-- Result of the source loop: an early error return or the final state. -/
inductive LoopResult where
  | early (k : ErrKind)
  | done (acc : Accum)
  deriving DecidableEq, Repr


/-- The loop over configured sources (lines 55–200).  The returned
`List Nat` is the fetch trace: the indices of the sources for which a
network request was issued, in order. -/
def runSources (show0 hide : Option (List Int)) (today daysHistory : Int) :
    List (SourceCfg × FetchOutcome) → Nat → Accum → List Nat →
    List Nat × Except PyErr LoopResult
  | [], _, acc, tr => (tr, .ok (.done acc))
  | (cfg, out) :: rest, i, acc, tr =>
      if cfg.id = none then (tr, .ok (.early .configError))
      else
        if selected show0 hide (cfg.id.getD 0) then
          match out with
          | .fetchFail => (tr ++ [i], .ok (.early (.fetchError cfg.id)))
          | .parseFail => (tr ++ [i], .ok (.early (.parseError cfg.id)))
          | .events evs =>
              match processEvents i cfg today daysHistory evs acc with
              | .error err => (tr ++ [i], .error err)
              | .ok acc' => runSources show0 hide today daysHistory rest (i + 1) acc' (tr ++ [i])
        else runSources show0 hide today daysHistory rest (i + 1) acc tr


/-- The event collection accumulated before the recurrence merge
(lines 203–205): directly-added events first, then the staged dict's values
in insertion order; still carrying the ghost source tags. -/
def outputTagged (acc : Accum) : List (Nat × Event) :=
  acc.combined ++ acc.temp.map Prod.snd


/-! ## `merge_recurring_sets` (lines 227–276) -/

/-- Append `v` to the list held at key `k`
(`grouped.setdefault(key, []).append(comp)`). -/
def assocAppend (m : List (String × List Event)) (k : String) (v : Event) :
    List (String × List Event) :=
  if m.any (fun p => p.1 = k) then
    m.map (fun p => if p.1 = k then (p.1, p.2 ++ [v]) else p)
  else m ++ [(k, [v])]


/-- The truthy RELATED-TO key of an event (`if recset:` — an empty string is
falsy), `none` when the event is ungrouped. -/
def relKey (e : Event) : Option String :=
  match e.relatedTo with
  | some s => if s ≠ "" then some s else none
  | none => none


/-- Partition of the events into the RELATED-TO groups (dict in key
first-encounter order, members in encounter order) and the ungrouped rest
(lines 239–248). -/
def partitionRelatedAux :
    List (String × List Event) × List Event → List Event →
    List (String × List Event) × List Event
  | acc, [] => acc
  | (g, o), e :: es =>
      match relKey e with
      | some k => partitionRelatedAux (assocAppend g k e, o) es
      | none => partitionRelatedAux (g, o ++ [e]) es


/-- The grouped/ungrouped partition of the event list. -/
def partitionRelated (evs : List Event) :
    List (String × List Event) × List Event :=
  partitionRelatedAux ([], []) evs


/-- The comparison class of a value in the occurrence pool: Python `date`s,
naive `datetime`s and timezone-aware `datetime`s are three mutually
unorderable kinds — `<` between values of two different classes raises
`TypeError` while `==` across classes is `False`, and within one class both
are total. -/
inductive OccClass where
  | dateC
  | naiveC
  | awareC
  deriving DecidableEq, Repr


/-- The value `ev.decoded('DTSTART')` contributes to the occurrence pool
(lines 260, 267): its comparison class, paired with the number ordering its
class (day number for a date, wall minutes for a naive datetime, absolute
minutes for an aware one — aware datetimes compare and equate by instant).
A missing DTSTART raises `KeyError` at `decoded`; a start of unclassifiable
type holds a value outside the modelled time domain, treated as the abort
its comparison against the modelled values would raise. -/
def occVal : Option TimeVal → Except PyErr (OccClass × Int)
  | some (.dateTime w none) => .ok (.naiveC, w)
  | some (.dateTime w (some o)) => .ok (.awareC, w - o)
  | some (.dateOnly d) => .ok (.dateC, d)
  | some .other => .error .typeError
  | none => .error .keyError


/-- Occurrences of one group member (lines 259–267): the expansion of its
RRULE from its own DTSTART when it has a (truthy) rule, else its own DTSTART
alone.  `expand` is the external `dateutil.rrule.rrulestr` collaborator, a
pure function from (rule text, anchor) to occurrence timestamps.  `rrule`
yields `datetime`s: a date anchor is first lifted to the naive midnight
datetime (minute `1440 * day`), so a date-start member with a rule
contributes *naive datetime* occurrences, while a datetime anchor keeps its
awareness class. -/
def memberOccurrences (expand : String → Int → List Int) (e : Event) :
    Except PyErr (List (OccClass × Int)) := do
  let cv ← occVal e.dtstart
  match e.rrule with
  | some r =>
      match cv.1 with
      | .dateC => pure ((expand r (1440 * cv.2)).map (fun x => (OccClass.naiveC, x)))
      | c => pure ((expand r cv.2).map (fun x => (c, x)))
  | none => pure [cv]


/-- The pooled occurrences of a whole group, in member order (lines 258–267). -/
def groupOccurrences (expand : String → Int → List Int) :
    List Event → Except PyErr (List (OccClass × Int))
  | [] => .ok []
  | e :: es => do
      let l ← memberOccurrences expand e
      let rest ← groupOccurrences expand es
      pure (l ++ rest)


/-- Do all pooled occurrences carry one comparison class? -/
def classUniform : List (OccClass × Int) → Bool
  | [] => true
  | (c, _) :: rest => rest.all (fun p => p.1 = c)


/-- Insert into a strictly-sorted list, keeping it strictly sorted. -/
def insertSortedNodup (x : Int) : List Int → List Int
  | [] => [x]
  | y :: ys =>
      if x < y then x :: y :: ys
      else if x = y then y :: ys
      else y :: insertSortedNodup x ys


/-- The strictly ascending enumeration of the distinct elements of `l`:
`sorted(set(l))` within one comparison class. -/
def sortedDedup (l : List Int) : List Int :=
  l.foldr insertSortedNodup []


/-- Python's `sorted(set(all_dtstarts))` on the pool (line 269): within a
single comparison class, `set` equality and the sort order are those of the
value; a pool mixing two classes always ends up comparing two values of
different classes (cross-class values are never equal, so both survive the
`set`) and `sorted` raises `TypeError`. -/
def pySortedSet (l : List (OccClass × Int)) : Except PyErr (List Int) :=
  if classUniform l then .ok (sortedDedup (l.map Prod.snd)) else .error .typeError


/-- Merge one group of size ≥ 2 (lines 257–274): take the first member, pool
the occurrences, sort the deduplicated set (aborting on a mixed-class pool),
strip RRULE and SEQUENCE, and `add` an RDATE line (icalendar's `add` appends
a further property line, keeping existing ones). -/
def mergeGroup (expand : String → Int → List Int) :
    List Event → Except PyErr Event
  | [] => .error .keyError
  | base :: rest => do
      let occ ← groupOccurrences expand (base :: rest)
      let uniqueDates ← pySortedSet occ
      pure { base with rrule := none, sequence := none,
                       rdate := base.rdate ++ [uniqueDates] }


/-- One output event for one group: a singleton group passes through its
sole member (`len(evs) == 1`), a larger one is merged. -/
def groupStep (expand : String → Int → List Int) (g : List Event) :
    Except PyErr Event :=
  match g with
  | [e] => .ok e
  | _ => mergeGroup expand g


/-- Emit one event per group: singletons pass through, larger groups merge. -/
def mergeGroups (expand : String → Int → List Int) :
    List (String × List Event) → Except PyErr (List Event)
  | [] => .ok []
  | (_, g) :: gs => do
      let ev ← groupStep expand g
      let rest ← mergeGroups expand gs
      pure (ev :: rest)


/-- `merge_recurring_sets`: ungrouped events first (in order), then one event
per RELATED-TO group (in key first-encounter order). -/
def merge_recurring_sets (expand : String → Int → List Int)
    (evs : List Event) : Except PyErr (List Event) := do
  let (grouped, others) := partitionRelated evs
  let merged ← mergeGroups expand grouped
  pure (others ++ merged)


/-! ## `get_cal` end to end -/

/-- The outcome of a request: an HTTP error response (message kind and
status code) or the merged event collection served with status 200. -/
inductive Response where
  | err (k : ErrKind) (status : Nat)
  | success (events : List Event)
  deriving DecidableEq, Repr


/-- The core of `get_cal`: show/hide validation, the source loop, the final
staging append and the recurrence merge.  The first component is the fetch
trace; a `.error` is an uncaught Python exception escaping the handler. -/
def get_cal (show0 hide : Option (List Int)) (today daysHistory : Int)
    (expand : String → Int → List Int)
    (srcs : List (SourceCfg × FetchOutcome)) :
    List Nat × Except PyErr Response :=
  if show0.isSome && hide.isSome then ([], .ok (.err .invalidParams 500))
  else
    match runSources show0 hide today daysHistory srcs 0 {} [] with
    | (tr, .error e) => (tr, .error e)
    | (tr, .ok (.early k)) => (tr, .ok (.err k 500))
    | (tr, .ok (.done acc)) =>
        match merge_recurring_sets expand ((outputTagged acc).map Prod.snd) with
        | .error e => (tr, .error e)
        | .ok evs => (tr, .ok (.success evs))



/-- The start is neither a datetime nor a date (Python falls through both
`isinstance` tests). -/
def startUnclassifiable : Option TimeVal → Bool
  | some (.dateTime _ _) => false
  | some (.dateOnly _) => false
  | _ => true


/-! ## Deduplication invariants (lines 191–205) -/

/-- The kept transformed events of one source's raw events, in processing
order. -/
def transKept (cfg : SourceCfg) (today w : Int) : List Event → Except PyErr (List Event)
  | [] => .ok []
  | e :: es => do
      let o ← transformEvent cfg today w e
      let rest ← transKept cfg today w es
      match o with
      | none => pure rest
      | some ev => pure (ev :: rest)


/-- Pure routing of a list of kept events (the staged/direct split of
lines 191–200, with the `KeyError` case factored out: under a successful
run every dedup-routed event carries a UID). -/
def routeAll (i : Nat) (cfg : SourceCfg) : List Event → Accum → Accum
  | [], acc => acc
  | ev :: evs, acc =>
      if cfg.filterDuplicates then
        routeAll i cfg evs { acc with temp := dictSet acc.temp (ev.uid.getD "") (i, ev) }
      else
        routeAll i cfg evs { acc with combined := acc.combined ++ [(i, ev)] }


/-- The last element of the list whose UID is `u` (last-write-wins). -/
def lastWith (u : String) : List Event → Option Event
  | [] => none
  | ev :: evs =>
      match lastWith u evs with
      | some x => some x
      | none => if ev.uid = some u then some ev else none


/-- First-match association lookup (Python dict access by key). -/
def alookup {α : Type} (k : String) : List (String × α) → Option α
  | [] => none
  | (k', v) :: rest => if k' = k then some v else alookup k rest


/-- The association list has pairwise-distinct keys. -/
def NodupKeys {α : Type} (m : List (String × α)) : Prop :=
  (m.map Prod.fst).Nodup


/-- Tag a source's events with its index (ghost provenance). -/
def tag (i : Nat) (l : List Event) : List (Nat × Event) :=
  l.map (fun ev => (i, ev))


/-- What the staged dict holds at key `u` after the loop runs over `srcs`
starting at index `n` with current entry `cur`: each selected
duplicate-filtering source whose kept events contain `u` overwrites the entry
with its last such event. -/
def stagedAfter (show0 hide : Option (List Int)) (today w : Int) (u : String) :
    List (SourceCfg × FetchOutcome) → Nat → Option (Nat × Event) → Option (Nat × Event)
  | [], _, cur => cur
  | (cfg, out) :: rest, n, cur =>
      stagedAfter show0 hide today w u rest (n + 1)
        (if cfg.id ≠ none ∧ selected show0 hide (cfg.id.getD 0) = true ∧
            cfg.filterDuplicates = true then
          match out with
          | .events evs =>
              match transKept cfg today w evs with
              | .ok kl =>
                  match lastWith u kl with
                  | some ev => some (n, ev)
                  | none => cur
              | .error _ => cur
          | _ => cur
        else cur)


/-- HTTP 4xx means client error; 5xx means server error. -/
def isClientError (status : Nat) : Bool :=
  decide (400 ≤ status) && decide (status < 500)


/-! ## Concrete instances: counterexamples and witnesses -/

/-- A UID already in canonical GUID shape (passes the regex untouched). -/
def guidW : String := "12345678-1234-1234-8123-123456789012"


/-- A trivial recurrence expander (no rule produces any occurrence). -/
def expand0 : String → Int → List Int := fun _ _ => []


def cfgU : SourceCfg := { id := some 1, makeUnique := true }

def eU : Event := { uid := some "evt-42", dtstart := some (.dateTime 0 none) }

def evU : Event :=
  { uid := some (create_uid "1-evt-42"), dtstart := some (.dateTime 0 none),
    duration := some 5 }


def cfgD : SourceCfg := { id := some 1, filterDuplicates := true }

def e1D : Event := { uid := some guidW, dtstart := some (.dateTime 0 none) }

def e2D : Event := { uid := some guidW, dtstart := some (.dateTime 100 none) }

def srcsD : List (SourceCfg × FetchOutcome) := [(cfgD, .events [e1D, e2D])]

def accD : Accum :=
  { temp := [(guidW, (0, { e2D with duration := some 5 }))], combined := [] }


def eR : Event := { uid := some guidW, dtend := some (.dateOnly 90) }

def eRr : Event :=
  { uid := some guidW, dtend := some (.dateOnly 50), rrule := some "FREQ=DAILY" }


def eC5 : Event :=
  { uid := some guidW, dtstart := some .other, dtend := some (.dateTime 60 none) }


def cfgF : SourceCfg := { id := some 1, durationCfg := some 30 }

def eF : Event :=
  { uid := some guidW, dtstart := some (.dateTime 0 none),
    dtend := some (.dateTime 60 none) }


def cfgP : SourceCfg :=
  { id := some 1, durationCfg := some 10, padStartMinutes := some 5 }

def eP : Event :=
  { uid := some guidW, dtstart := some (.dateTime 0 none), duration := some 30 }


def evP : Event :=
  { eP with dtstart := some (.dateTime (-5) none), duration := some 15 }


def cfgPw : SourceCfg := { id := some 1, padStartMinutes := some 5 }

def ePe : Event :=
  { uid := some guidW, dtstart := some (.dateTime 0 none),
    dtend := some (.dateTime 30 none) }

def evPe : Event :=
  { ePe with dtstart := some (.dateTime (0 - 5) none), duration := some 40 }


def srcsC9 : List (SourceCfg × FetchOutcome) :=
  [({ id := some 1 }, .events []), ({}, .events [])]


def cfgX : SourceCfg := { id := some 1, summaryPrefix := some "Work" }

def eX : Event := { uid := some guidW, dtstart := some (.dateTime 0 none) }


def eM1 : Event :=
  { uid := some guidW, dtstart := some (.dateTime 0 none),
    relatedTo := some "r", rdate := [[99]] }

def eM2 : Event :=
  { uid := some guidW, dtstart := some (.dateTime 10 none), relatedTo := some "r" }


def eN1 : Event := { dtstart := some (.dateOnly 10), relatedTo := some "r" }

def eN2 : Event := { dtstart := some (.dateOnly 0), relatedTo := some "r" }

def mergedN : Event :=
  { dtstart := some (.dateOnly 10), relatedTo := some "r", rdate := [[0, 10]] }

def eY1 : Event := { dtstart := some (.dateTime 5 none), relatedTo := some "m" }

def eY2 : Event := { dtstart := some (.dateTime 5 (some 60)), relatedTo := some "m" }


/-! ## Theorems -/

/-- FIPS 180 test vector for the embedded SHA-1. -/
theorem sha1_fips_vector :
    bytesToHex (sha1 (utf8Encode "abc")) = "a9993e364706816aba3e25717850c26c9cd0d89d" := by
  decide


/-- RFC 4122 appendix-style test vector for the embedded UUIDv5. -/
theorem uuid5_dns_vector :
    uuidToString (uuid5Bytes namespaceDNS "python.org")
      = "886313e1-3b8a-5372-9b90-0c9aee199e5d" := by
  decide


theorem transform_ok_some_decomp {cfg : SourceCfg} {today w : Int} {e ev' : Event}
    (h : transformEvent cfg today w e = .ok (some ev')) :
    ∃ e1 e2 e3 e4, retentionDrop today w e = .ok false ∧ durationStep cfg e = some e1 ∧
      paddingStep cfg e1 = .ok e2 ∧ prefixStep cfg e2 = .ok e3 ∧ uidStep cfg e3 = .ok e4 ∧
      ev' = normalizeStep (descriptionStep (organizerStep e4)) := by
  unfold transformEvent at h
  cases h1 : retentionDrop today w e with
  | error err => rw [h1] at h; exact absurd h (by simp [Bind.bind, Except.bind])
  | ok b =>
    rw [h1] at h
    cases b with
    | true => exact absurd h (by simp [Bind.bind, Except.bind, pure, Except.pure])
    | false =>
      simp only [Bind.bind, Except.bind, Bool.false_eq_true, if_false] at h
      cases h2 : durationStep cfg e with
      | none => simp only [h2] at h; simp [pure, Except.pure] at h
      | some e1 =>
        simp only [h2] at h
        cases h3 : paddingStep cfg e1 with
        | error err => simp only [h3] at h; simp at h
        | ok e2 =>
          simp only [h3] at h
          cases h4 : prefixStep cfg e2 with
          | error err => simp only [h4] at h; simp at h
          | ok e3 =>
            simp only [h4] at h
            cases h5 : uidStep cfg e3 with
            | error err => simp only [h5] at h; simp at h
            | ok e4 =>
              simp only [h5] at h
              simp only [pure, Except.pure, Except.ok.injEq, Option.some.injEq] at h
              exact ⟨e1, e2, e3, e4, rfl, rfl, h3, h4, h5, h.symm⟩


theorem transform_compose {cfg : SourceCfg} {today w : Int} {e e1 e2 e3 e4 : Event}
    (h1 : retentionDrop today w e = .ok false) (h2 : durationStep cfg e = some e1)
    (h3 : paddingStep cfg e1 = .ok e2) (h4 : prefixStep cfg e2 = .ok e3)
    (h5 : uidStep cfg e3 = .ok e4) :
    transformEvent cfg today w e
      = .ok (some (normalizeStep (descriptionStep (organizerStep e4)))) := by
  unfold transformEvent
  rw [h1]
  simp only [Bind.bind, Except.bind, Bool.false_eq_true, if_false, h2, h3, h4, h5]
  rfl


theorem transform_drop_retention {cfg : SourceCfg} {today w : Int} {e : Event}
    (h1 : retentionDrop today w e = .ok true) :
    transformEvent cfg today w e = .ok none := by
  unfold transformEvent
  rw [h1]
  rfl


theorem transform_drop_type {cfg : SourceCfg} {today w : Int} {e : Event}
    (h1 : retentionDrop today w e = .ok false) (h2 : durationStep cfg e = none) :
    transformEvent cfg today w e = .ok none := by
  unfold transformEvent
  rw [h1]
  simp only [Bind.bind, Except.bind, Bool.false_eq_true, if_false, h2]
  rfl


theorem transform_ok_none_cases {cfg : SourceCfg} {today w : Int} {e : Event}
    (h : transformEvent cfg today w e = .ok none) :
    retentionDrop today w e = .ok true ∨
      (retentionDrop today w e = .ok false ∧ durationStep cfg e = none) := by
  unfold transformEvent at h
  cases h1 : retentionDrop today w e with
  | error err => simp only [h1] at h; simp [Bind.bind, Except.bind] at h
  | ok b =>
    simp only [h1] at h
    cases b with
    | true => exact Or.inl rfl
    | false =>
      refine Or.inr ⟨rfl, ?_⟩
      simp only [Bind.bind, Except.bind, Bool.false_eq_true, if_false] at h
      cases h2 : durationStep cfg e with
      | none => rfl
      | some e1 =>
        exfalso
        simp only [h2] at h
        cases h3 : paddingStep cfg e1 with
        | error err => simp only [h3] at h; simp at h
        | ok e2 =>
          simp only [h3] at h
          cases h4 : prefixStep cfg e2 with
          | error err => simp only [h4] at h; simp at h
          | ok e3 =>
            simp only [h4] at h
            cases h5 : uidStep cfg e3 with
            | error err => simp only [h5] at h; simp at h
            | ok e4 => simp only [h5] at h; simp [pure, Except.pure] at h


theorem durationStep_shape {cfg : SourceCfg} {e e1 : Event}
    (h : durationStep cfg e = some e1) : ∃ d, e1 = { e with duration := d } := by
  unfold durationStep at h
  cases hm : cfg.durationCfg with
  | some m =>
    simp only [hm] at h
    cases hd : isDT e.dtstart with
    | true =>
      simp only [hd] at h
      exact ⟨some m, (Option.some.injEq _ _ ▸ h).symm⟩
    | false =>
      simp only [hd] at h
      split at h
      · cases hs : e.dtstart with
        | none => simp only [hs] at h; cases h
        | some v =>
          cases v with
          | dateTime a b => simp only [hs] at h; exact ⟨some 5, by cases h; rfl⟩
          | dateOnly d => simp only [hs] at h; exact ⟨some 1440, by cases h; rfl⟩
          | other => simp only [hs] at h; cases h
      · exact ⟨e.duration, by cases h; rfl⟩
  | none =>
    simp only [hm] at h
    split at h
    · cases hs : e.dtstart with
      | none => simp only [hs] at h; cases h
      | some v =>
        cases v with
        | dateTime a b => simp only [hs] at h; exact ⟨some 5, by cases h; rfl⟩
        | dateOnly d => simp only [hs] at h; exact ⟨some 1440, by cases h; rfl⟩
        | other => simp only [hs] at h; cases h
    · exact ⟨e.duration, by cases h; rfl⟩


theorem paddingStep_shape {cfg : SourceCfg} {e1 e2 : Event}
    (h : paddingStep cfg e1 = .ok e2) :
    ∃ s d, e2 = { e1 with dtstart := s, duration := d } := by
  unfold paddingStep at h
  split at h
  case h_1 mp t tz hmp hst =>
    cases hd : effDuration { e1 with dtstart := some (.dateTime (t - mp) tz) } with
    | error err => simp only [hd] at h; simp [Bind.bind, Except.bind] at h
    | ok d1 =>
      simp only [hd, Bind.bind, Except.bind, pure, Except.pure, Except.ok.injEq] at h
      exact ⟨_, _, h.symm⟩
  case h_2 =>
    simp only [pure, Except.pure, Except.ok.injEq] at h
    exact ⟨e1.dtstart, e1.duration, by rw [← h]⟩


theorem prefixStep_shape {cfg : SourceCfg} {e2 e3 : Event}
    (h : prefixStep cfg e2 = .ok e3) : ∃ s, e3 = { e2 with summary := s } := by
  unfold prefixStep at h
  cases hp : cfg.summaryPrefix with
  | none =>
    simp only [hp, pure, Except.pure, Except.ok.injEq] at h
    exact ⟨e2.summary, by rw [← h]⟩
  | some p =>
    simp only [hp] at h
    cases hs : e2.summary with
    | none => simp only [hs] at h; cases h
    | some s =>
      simp only [hs, pure, Except.pure, Except.ok.injEq] at h
      exact ⟨_, h.symm⟩


theorem uidStep_shape {cfg : SourceCfg} {e3 e4 : Event}
    (h : uidStep cfg e3 = .ok e4) : ∃ u, e4 = { e3 with uid := u } := by
  unfold uidStep at h
  split at h
  · cases hu : e3.uid with
    | none => simp only [hu] at h; cases h
    | some u =>
      simp only [hu, pure, Except.pure, Except.ok.injEq] at h
      exact ⟨_, h.symm⟩
  · cases hu : e3.uid with
    | none => simp only [hu] at h; cases h
    | some u =>
      simp only [hu] at h
      split at h
      · simp only [pure, Except.pure, Except.ok.injEq] at h
        exact ⟨e3.uid, by rw [← h]⟩
      · simp only [pure, Except.pure, Except.ok.injEq] at h
        exact ⟨_, h.symm⟩


theorem uidStep_makeUnique {cfg : SourceCfg} {e3 e4 : Event} {u : String}
    (hmk : cfg.makeUnique = true) (hu : e3.uid = some u)
    (h : uidStep cfg e3 = .ok e4) :
    e4.uid = some (create_uid (idStr cfg.id ++ "-" ++ u)) := by
  unfold uidStep at h
  simp only [hmk, if_true, hu, pure, Except.pure, Except.ok.injEq] at h
  rw [← h]


theorem descriptionStep_shape (e : Event) :
    ∃ dsc, descriptionStep e = { e with description := dsc } := by
  unfold descriptionStep
  split
  · split
    · exact ⟨_, rfl⟩
    · exact ⟨e.description, rfl⟩
  · exact ⟨e.description, rfl⟩


theorem final_uid (e : Event) :
    (normalizeStep (descriptionStep (organizerStep e))).uid = e.uid := by
  obtain ⟨d, hd⟩ := descriptionStep_shape (organizerStep e)
  rw [hd]
  rfl


/-- C2-claim: UID canonicalization is the fixed SHA-1 + UUIDv5 composition;
a `MakeUnique` source hashes `"<Id>-<UID>"`, so equal (source-id, original
identifier) pairs yield equal output identifiers. -/
theorem uid_canonicalization_pure :
    (∀ s : String, create_uid s
        = uuidToString (uuid5Bytes namespaceDNS (bytesToHex (sha1 (utf8Encode s))))) ∧
    (∀ (cfg : SourceCfg) (today w : Int) (e ev' : Event) (u : String),
        cfg.makeUnique = true → e.uid = some u →
        transformEvent cfg today w e = .ok (some ev') →
        ev'.uid = some (create_uid (idStr cfg.id ++ "-" ++ u))) ∧
    (∀ (cfg₁ cfg₂ : SourceCfg) (today₁ today₂ w₁ w₂ : Int)
        (e₁ e₂ ev₁ ev₂ : Event) (u : String),
        cfg₁.makeUnique = true → cfg₂.makeUnique = true → cfg₁.id = cfg₂.id →
        e₁.uid = some u → e₂.uid = some u →
        transformEvent cfg₁ today₁ w₁ e₁ = .ok (some ev₁) →
        transformEvent cfg₂ today₂ w₂ e₂ = .ok (some ev₂) →
        ev₁.uid = ev₂.uid) := by
  have main : ∀ (cfg : SourceCfg) (today w : Int) (e ev' : Event) (u : String),
      cfg.makeUnique = true → e.uid = some u →
      transformEvent cfg today w e = .ok (some ev') →
      ev'.uid = some (create_uid (idStr cfg.id ++ "-" ++ u)) := by
    intro cfg today w e ev' u hmk hu h
    obtain ⟨e1, e2, e3, e4, _, h2, h3, h4, h5, hev⟩ := transform_ok_some_decomp h
    obtain ⟨d1, hd1⟩ := durationStep_shape h2
    obtain ⟨s2, d2, hd2⟩ := paddingStep_shape h3
    obtain ⟨s3, hd3⟩ := prefixStep_shape h4
    have hu3 : e3.uid = some u := by rw [hd3, hd2, hd1]; exact hu
    have := uidStep_makeUnique hmk hu3 h5
    rw [hev, final_uid]
    exact this
  refine ⟨fun s => rfl, main, ?_⟩
  intro cfg₁ cfg₂ today₁ today₂ w₁ w₂ e₁ e₂ ev₁ ev₂ u hmk₁ hmk₂ hid hu₁ hu₂ h₁ h₂
  rw [main cfg₁ today₁ w₁ e₁ ev₁ u hmk₁ hu₁ h₁, main cfg₂ today₂ w₂ e₂ ev₂ u hmk₂ hu₂ h₂, hid]


theorem retentionDrop_eval (today : Int) {w : Int} {e : Event} {v : TimeVal} {d : Int}
    (hw : w ≠ 0) (he : e.dtend = some v) (hd : dateOfVal v = .ok d) :
    retentionDrop today w e = .ok (decide (d < today - w) && e.rrule.isNone) := by
  unfold retentionDrop
  rw [he]
  simp only [hw, ne_eq, not_false_iff, if_true, hd, Bind.bind, Except.bind]
  rfl


theorem retentionDrop_no_end {today w : Int} {e : Event} (he : e.dtend = none) :
    retentionDrop today w e = .ok false := by
  unfold retentionDrop
  rw [he]
  rfl


theorem durationStep_none_iff {cfg : SourceCfg} {e : Event} :
    durationStep cfg e = none ↔
      (e.dtend.isNone ∧ e.duration.isNone ∧ startUnclassifiable e.dtstart = true) := by
  rcases hs : e.dtstart with _ | (⟨wl, tz⟩ | d | _) <;>
    rcases hm : cfg.durationCfg with _ | m <;>
      simp only [durationStep, startUnclassifiable, isDT, hs, hm] <;>
        first
          | (split <;> simp_all)
          | simp_all


theorem durationStep_some_of_end {cfg : SourceCfg} {e : Event}
    (h : e.dtend.isSome = true) : durationStep cfg e ≠ none := by
  intro hn
  rw [durationStep_none_iff] at hn
  simp [Option.isNone_iff_eq_none] at hn
  rw [hn.1] at h
  cases h


/-- C4-claim: with a retention window `w > 0`, an event with an end and no
recurrence rule is dropped iff its end date is strictly before `today - w`;
an event with a recurrence rule is never dropped. -/
theorem retention_window_boundary :
    (∀ (cfg : SourceCfg) (today w : Int) (e : Event) (v : TimeVal) (d : Int),
        0 < w → e.dtend = some v → dateOfVal v = .ok d → e.rrule = none →
        (transformEvent cfg today w e = .ok none ↔ d < today - w)) ∧
    (∀ (cfg : SourceCfg) (today w : Int) (e : Event) (v : TimeVal) (d : Int) (r : String),
        0 < w → e.dtend = some v → dateOfVal v = .ok d → e.rrule = some r →
        transformEvent cfg today w e ≠ .ok none) := by
  constructor
  · intro cfg today w e v d hw he hd hr
    have hw' : w ≠ 0 := by omega
    have heval := retentionDrop_eval today hw' he hd
    rw [hr] at heval
    simp only [Option.isNone_none, Bool.and_true] at heval
    constructor
    · intro h
      rcases transform_ok_none_cases h with hcase | ⟨_, hnone⟩
      · rw [heval] at hcase
        simp only [Except.ok.injEq, decide_eq_true_eq] at hcase
        exact hcase
      · exact absurd hnone (durationStep_some_of_end (by simp [he]))
    · intro hlt
      apply transform_drop_retention
      rw [heval]
      simp [hlt]
  · intro cfg today w e v d r hw he hd hr h
    have hw' : w ≠ 0 := by omega
    have heval := retentionDrop_eval today hw' he hd
    rw [hr] at heval
    simp only [Option.isNone_some, Bool.and_false] at heval
    rcases transform_ok_none_cases h with hcase | ⟨_, hnone⟩
    · rw [heval] at hcase
      simp at hcase
    · exact absurd hnone (durationStep_some_of_end (by simp [he]))


theorem durationStep_resolves {cfg : SourceCfg} {e e1 : Event}
    (h : durationStep cfg e = some e1) :
    e1.dtend.isSome = true ∨ e1.duration.isSome = true := by
  unfold durationStep at h
  split at h
  · injection h with h'
    subst h'
    right
    rfl
  · split at h
    · split at h
      · injection h with h'; subst h'; right; rfl
      · injection h with h'; subst h'; right; rfl
      · cases h
    · next hcond =>
      injection h with h'
      subst h'
      cases hh : e.dtend with
      | some x => exact Or.inl (by simp [hh])
      | none =>
        right
        by_contra hdu
        apply hcond
        simp only [Bool.and_eq_true]
        exact ⟨by simp [hh], by simpa using hdu⟩


theorem paddingStep_resolves {cfg : SourceCfg} {e1 e2 : Event}
    (h : paddingStep cfg e1 = .ok e2)
    (hres : e1.dtend.isSome = true ∨ e1.duration.isSome = true) :
    e2.dtend.isSome = true ∨ e2.duration.isSome = true := by
  unfold paddingStep at h
  split at h
  case h_1 mp t tz hmp hst =>
    cases hd : effDuration { e1 with dtstart := some (.dateTime (t - mp) tz) } with
    | error err => simp only [hd] at h; simp [Bind.bind, Except.bind] at h
    | ok d1 =>
      simp only [hd, Bind.bind, Except.bind, pure, Except.pure, Except.ok.injEq] at h
      subst h
      right
      rfl
  case h_2 =>
    simp only [pure, Except.pure, Except.ok.injEq] at h
    subst h
    exact hres


/-- C5-claim, amended: every emitted event has a resolvable end (an end or a
duration property), and a kept event whose start is unclassifiable *and*
which carries neither an end nor a duration is silently dropped. -/
theorem emitted_events_end_resolvable_amended :
    (∀ (cfg : SourceCfg) (today w : Int) (e ev' : Event),
        transformEvent cfg today w e = .ok (some ev') →
        ev'.dtend.isSome = true ∨ ev'.duration.isSome = true) ∧
    (∀ (cfg : SourceCfg) (today w : Int) (e : Event),
        startUnclassifiable e.dtstart = true → e.dtend = none → e.duration = none →
        transformEvent cfg today w e = .ok none) := by
  constructor
  · intro cfg today w e ev' h
    obtain ⟨e1, e2, e3, e4, _, h2, h3, h4, h5, hev⟩ := transform_ok_some_decomp h
    have r2 := paddingStep_resolves h3 (durationStep_resolves h2)
    obtain ⟨s3, hd3⟩ := prefixStep_shape h4
    obtain ⟨u4, hd4⟩ := uidStep_shape h5
    obtain ⟨dsc, hdsc⟩ := descriptionStep_shape (organizerStep e4)
    have hend : ev'.dtend = e2.dtend.map normTime := by
      rw [hev]
      unfold normalizeStep
      rw [hdsc]
      show (organizerStep e4).dtend.map normTime = e2.dtend.map normTime
      rw [hd4, hd3]
      rfl
    have hdur : ev'.duration = e2.duration := by
      rw [hev]
      unfold normalizeStep
      rw [hdsc]
      show (organizerStep e4).duration = e2.duration
      rw [hd4, hd3]
      rfl
    rcases r2 with hh | hh
    · left
      rw [hend]
      simpa using hh
    · right
      rw [hdur]
      exact hh
  · intro cfg today w e hun hend hdur
    apply transform_drop_type (retentionDrop_no_end hend)
    rw [durationStep_none_iff]
    exact ⟨by simp [hend], by simp [hdur], hun⟩


theorem durationStep_fixed {cfg : SourceCfg} {e : Event} {m : Int}
    (hm : cfg.durationCfg = some m) (hdt : isDT e.dtstart = true) :
    durationStep cfg e = some { e with duration := some m } := by
  unfold durationStep
  rw [hm, hdt]


theorem paddingStep_skip_noCfg {cfg : SourceCfg} {e1 : Event}
    (hp : cfg.padStartMinutes = none) : paddingStep cfg e1 = .ok e1 := by
  unfold paddingStep
  rw [hp]
  rfl


theorem paddingStep_skip_dateOnly {cfg : SourceCfg} {e1 : Event} {d : Int}
    (hs : e1.dtstart = some (.dateOnly d)) : paddingStep cfg e1 = .ok e1 := by
  unfold paddingStep
  rw [hs]
  cases cfg.padStartMinutes <;> rfl


theorem paddingStep_active {cfg : SourceCfg} {e1 e2 : Event} {mp t : Int}
    {tz : Option Int} (hp : cfg.padStartMinutes = some mp)
    (hs : e1.dtstart = some (.dateTime t tz)) (h : paddingStep cfg e1 = .ok e2) :
    ∃ d1, effDuration { e1 with dtstart := some (.dateTime (t - mp) tz) } = .ok d1 ∧
      e2 = { e1 with dtstart := some (.dateTime (t - mp) tz),
                     duration := some (d1 + mp) } := by
  unfold paddingStep at h
  rw [hp, hs] at h
  cases hd : effDuration { e1 with dtstart := some (.dateTime (t - mp) tz) } with
  | error err => simp only [hd] at h; simp [Bind.bind, Except.bind] at h
  | ok d1 =>
    simp only [hd, Bind.bind, Except.bind, pure, Except.pure, Except.ok.injEq] at h
    exact ⟨d1, rfl, h.symm⟩


theorem final_fields (e : Event) :
    (normalizeStep (descriptionStep (organizerStep e))).dtend = e.dtend.map normTime ∧
    (normalizeStep (descriptionStep (organizerStep e))).duration = e.duration ∧
    (normalizeStep (descriptionStep (organizerStep e))).dtstart = e.dtstart.map normTime ∧
    (normalizeStep (descriptionStep (organizerStep e))).summary = e.summary := by
  obtain ⟨dsc, hdsc⟩ := descriptionStep_shape (organizerStep e)
  rw [hdsc]
  exact ⟨rfl, rfl, rfl, rfl⟩


/-- C6-claim, amended: for a source with a fixed duration and no start
padding, an emitted datetime-start event has its DURATION property set to the
fixed duration (any prior DURATION replaced), while a prior end property is
retained (only timezone-normalized), not removed. -/
theorem fixed_duration_sets_duration_amended :
    ∀ (cfg : SourceCfg) (today w : Int) (e ev' : Event) (m : Int),
      cfg.durationCfg = some m → cfg.padStartMinutes = none →
      isDT e.dtstart = true →
      transformEvent cfg today w e = .ok (some ev') →
      ev'.duration = some m ∧ ev'.dtend = e.dtend.map normTime := by
  intro cfg today w e ev' m hm hp hdt h
  obtain ⟨e1, e2, e3, e4, _, h2, h3, h4, h5, hev⟩ := transform_ok_some_decomp h
  rw [durationStep_fixed hm hdt] at h2
  injection h2 with h2'
  rw [paddingStep_skip_noCfg hp] at h3
  injection h3 with h3'
  obtain ⟨s3, hd3⟩ := prefixStep_shape h4
  obtain ⟨u4, hd4⟩ := uidStep_shape h5
  obtain ⟨hfe, hfd, _, _⟩ := final_fields e4
  constructor
  · rw [hev, hfd, hd4, hd3, ← h3', ← h2']
  · rw [hev, hfe, hd4, hd3, ← h3', ← h2']


theorem effDuration_duration {e : Event} {d : Int} (hd : e.duration = some d) :
    effDuration e = .ok d := by
  unfold effDuration
  rw [hd]


theorem effDuration_none_end {e : Event} {d0 : Int}
    (hd : e.duration = none) (h : effDuration e = .ok d0) :
    ∃ v2 v1, e.dtend = some v2 ∧ e.dtstart = some v1 ∧ subTime v2 v1 = .ok d0 := by
  unfold effDuration at h
  simp only [hd] at h
  cases he : e.dtend with
  | none =>
    simp only [he] at h
    cases h
  | some v2 =>
    simp only [he] at h
    cases hs : e.dtstart with
    | none => simp only [hs] at h; cases h
    | some v1 =>
      simp only [hs] at h
      exact ⟨v2, v1, rfl, rfl, h⟩


theorem subTime_shift (mp : Int) {v2 : TimeVal} {t d0 : Int} {tz : Option Int}
    (h : subTime v2 (.dateTime t tz) = .ok d0) :
    subTime v2 (.dateTime (t - mp) tz) = .ok (d0 + mp) := by
  cases v2 with
  | dateTime w2 o2 =>
    cases o2 with
    | none =>
      cases tz with
      | none =>
        unfold subTime at h
        injection h with h
        have hv : w2 - (t - mp) = d0 + mp := by omega
        show Except.ok (w2 - (t - mp)) = Except.ok (d0 + mp)
        rw [hv]
      | some o1 => unfold subTime at h; cases h
    | some o2 =>
      cases tz with
      | none => unfold subTime at h; cases h
      | some o1 =>
        unfold subTime at h
        injection h with h
        have hv : (w2 - o2) - ((t - mp) - o1) = d0 + mp := by omega
        show Except.ok ((w2 - o2) - ((t - mp) - o1)) = Except.ok (d0 + mp)
        rw [hv]
  | dateOnly d => unfold subTime at h; cases h
  | other => unfold subTime at h; cases h


/-- C7-claim, amended: for a source with pad-start `mp` and a datetime start,
the emitted start is the original shifted `mp` minutes earlier (then
timezone-normalized), and the emitted DURATION is the duration computed on
the already-shifted event plus `mp`.  Concretely: when a DURATION property
is present after duration resolution it comes out extended by exactly `mp`,
but when the event instead carries an end and no duration, the computed span
is measured from the shifted start, so the stored duration is the original
span plus `2 * mp`.  Date-only starts are not padded. -/
theorem padding_shifts_start_amended :
    (∀ (cfg : SourceCfg) (today w : Int) (e ev' : Event) (mp t : Int) (tz : Option Int),
        cfg.padStartMinutes = some mp → e.dtstart = some (.dateTime t tz) →
        transformEvent cfg today w e = .ok (some ev') →
        ∃ e1 d1, durationStep cfg e = some e1 ∧
          effDuration { e1 with dtstart := some (.dateTime (t - mp) tz) } = .ok d1 ∧
          ev'.dtstart = some (normTime (.dateTime (t - mp) tz)) ∧
          ev'.duration = some (d1 + mp) ∧
          (∀ d, e1.duration = some d → ev'.duration = some (d + mp)) ∧
          (∀ d0, e1.duration = none → effDuration e1 = .ok d0 →
            ev'.duration = some (d0 + mp + mp))) ∧
    (∀ (cfg : SourceCfg) (today w : Int) (e ev' : Event) (d : Int),
        cfg.padStartMinutes.isSome = true → e.dtstart = some (.dateOnly d) →
        transformEvent cfg today w e = .ok (some ev') →
        ev'.dtstart = some (.dateOnly d) ∧
        ∃ e1, durationStep cfg e = some e1 ∧ ev'.duration = e1.duration) := by
  constructor
  · intro cfg today w e ev' mp t tz hp hs h
    obtain ⟨e1, e2, e3, e4, _, h2, h3, h4, h5, hev⟩ := transform_ok_some_decomp h
    obtain ⟨dd, hd1⟩ := durationStep_shape h2
    have hs1 : e1.dtstart = some (.dateTime t tz) := by rw [hd1]; exact hs
    obtain ⟨d1, hda, he2⟩ := paddingStep_active hp hs1 h3
    obtain ⟨s3, hd3⟩ := prefixStep_shape h4
    obtain ⟨u4, hd4⟩ := uidStep_shape h5
    obtain ⟨_, hfd, hfs, _⟩ := final_fields e4
    have hdur' : ev'.duration = some (d1 + mp) := by
      rw [hev, hfd, hd4, hd3, he2]
    refine ⟨e1, d1, h2, hda, ?_, hdur', ?_, ?_⟩
    · rw [hev, hfs, hd4, hd3, he2]
      rfl
    · intro d hdd
      have hdd' : ({ e1 with dtstart := some (.dateTime (t - mp) tz) } : Event).duration
          = some d := hdd
      rw [effDuration_duration hdd'] at hda
      injection hda with hda
      rw [hdur', ← hda]
    · intro d0 hdn hd0
      obtain ⟨v2, v1, hend, hs1', hsub⟩ := effDuration_none_end hdn hd0
      have hv1 : v1 = .dateTime t tz := by
        rw [hs1] at hs1'
        injection hs1' with h'
        exact h'.symm
      subst hv1
      have hEshift : effDuration { e1 with dtstart := some (.dateTime (t - mp) tz) }
          = .ok (d0 + mp) := by
        unfold effDuration
        simp only [hdn, hend]
        exact subTime_shift mp hsub
      rw [hEshift] at hda
      injection hda with hda
      rw [hdur', ← hda]
  · intro cfg today w e ev' d hp hs h
    obtain ⟨e1, e2, e3, e4, _, h2, h3, h4, h5, hev⟩ := transform_ok_some_decomp h
    obtain ⟨d1, hd1⟩ := durationStep_shape h2
    have hs1 : e1.dtstart = some (.dateOnly d) := by rw [hd1]; exact hs
    rw [paddingStep_skip_dateOnly hs1] at h3
    injection h3 with h3'
    obtain ⟨s3, hd3⟩ := prefixStep_shape h4
    obtain ⟨u4, hd4⟩ := uidStep_shape h5
    obtain ⟨_, hfd, hfs, _⟩ := final_fields e4
    refine ⟨?_, e1, h2, ?_⟩
    · rw [hev, hfs, hd4, hd3, ← h3', hs1]
      rfl
    · rw [hev, hfd, hd4, hd3, ← h3']


/-- C10-claim: for a source with a prefix, a kept event with no SUMMARY makes
the prefixing step raise `KeyError`, which escapes `get_cal` and fails the
whole request (the event is neither prefixed, tolerated nor dropped). -/
theorem prefix_missing_summary_raises :
    (∀ (cfg : SourceCfg) (today w : Int) (e e1 e2 : Event) (p : String),
        cfg.summaryPrefix = some p → e.summary = none →
        retentionDrop today w e = .ok false → durationStep cfg e = some e1 →
        paddingStep cfg e1 = .ok e2 →
        transformEvent cfg today w e = .error .keyError) ∧
    (∀ (cfg : SourceCfg) (today w : Int) (e e1 e2 : Event) (p : String) (n : Int)
        (expand : String → Int → List Int),
        cfg.summaryPrefix = some p → e.summary = none → cfg.id = some n →
        retentionDrop today w e = .ok false → durationStep cfg e = some e1 →
        paddingStep cfg e1 = .ok e2 →
        get_cal none none today w expand [(cfg, .events [e])]
          = ([0], .error .keyError)) := by
  have main : ∀ (cfg : SourceCfg) (today w : Int) (e e1 e2 : Event) (p : String),
      cfg.summaryPrefix = some p → e.summary = none →
      retentionDrop today w e = .ok false → durationStep cfg e = some e1 →
      paddingStep cfg e1 = .ok e2 →
      transformEvent cfg today w e = .error .keyError := by
    intro cfg today w e e1 e2 p hp hsum h1 h2 h3
    obtain ⟨d1, hd1⟩ := durationStep_shape h2
    obtain ⟨s2, d2, hd2⟩ := paddingStep_shape h3
    have hsum2 : e2.summary = none := by rw [hd2, hd1]; exact hsum
    have hpre : prefixStep cfg e2 = .error .keyError := by
      unfold prefixStep
      rw [hp, hsum2]
    unfold transformEvent
    rw [h1]
    simp only [Bind.bind, Except.bind, Bool.false_eq_true, if_false, h2, h3, hpre]
  refine ⟨main, ?_⟩
  intro cfg today w e e1 e2 p n expand hp hsum hid h1 h2 h3
  have ht := main cfg today w e e1 e2 p hp hsum h1 h2 h3
  unfold get_cal
  simp only [Option.isSome_none, Bool.false_and, Bool.and_self, if_false]
  unfold runSources
  rw [hid]
  simp only [Option.isNone_some, Bool.false_eq_true, if_false]
  unfold selected processEvents
  simp only [ht, Bind.bind, Except.bind, if_true]
  simp


theorem alookup_dictSet_self {α : Type} (m : List (String × α)) (k : String) (v : α) :
    alookup k (dictSet m k v) = some v := by
  induction m with
  | nil => simp [dictSet, alookup]
  | cons p rest ih =>
    obtain ⟨k', v'⟩ := p
    by_cases hk : k' = k
    · simp [dictSet, hk, alookup]
    · simp [dictSet, hk, alookup, ih]


theorem alookup_dictSet_ne {α : Type} (m : List (String × α)) (k u : String) (v : α)
    (hne : u ≠ k) : alookup u (dictSet m k v) = alookup u m := by
  induction m with
  | nil => simp [dictSet, alookup, Ne.symm hne]
  | cons p rest ih =>
    obtain ⟨k', v'⟩ := p
    by_cases hk : k' = k
    · subst hk
      simp [dictSet, alookup, Ne.symm hne]
    · by_cases hu : k' = u
      · simp [dictSet, hk, alookup, hu, hne]
      · simp [dictSet, hk, alookup, hu, ih]


theorem mem_dictSet {α : Type} {m : List (String × α)} {k : String} {v : α}
    {p : String × α} (h : p ∈ dictSet m k v) : p = (k, v) ∨ p ∈ m := by
  induction m with
  | nil => simp [dictSet] at h; exact Or.inl h
  | cons q rest ih =>
    obtain ⟨k', v'⟩ := q
    by_cases hk : k' = k
    · rw [dictSet, if_pos hk] at h
      rcases List.mem_cons.mp h with h | h
      · exact Or.inl h
      · exact Or.inr (List.mem_cons_of_mem _ h)
    · rw [dictSet, if_neg hk] at h
      rcases List.mem_cons.mp h with h | h
      · exact Or.inr (by rw [h]; exact List.mem_cons_self _ _)
      · rcases ih h with h | h
        · exact Or.inl h
        · exact Or.inr (List.mem_cons_of_mem _ h)


theorem keys_dictSet {α : Type} (m : List (String × α)) (k : String) (v : α) :
    (dictSet m k v).map Prod.fst =
      if k ∈ m.map Prod.fst then m.map Prod.fst else m.map Prod.fst ++ [k] := by
  induction m with
  | nil => simp [dictSet]
  | cons q rest ih =>
    obtain ⟨k', v'⟩ := q
    by_cases hk : k' = k
    · subst hk
      simp [dictSet]
    · rw [dictSet, if_neg hk]
      simp only [List.map_cons, List.mem_cons]
      rw [ih]
      by_cases hmem : k ∈ rest.map Prod.fst
      · simp [hmem, Ne.symm hk]
      · simp [hmem, Ne.symm hk]


theorem nodupKeys_dictSet {α : Type} {m : List (String × α)} (k : String) (v : α)
    (h : NodupKeys m) : NodupKeys (dictSet m k v) := by
  unfold NodupKeys at h ⊢
  rw [keys_dictSet]
  split
  · exact h
  · next hmem =>
    simpa [List.nodup_append, hmem] using h


theorem alookup_eq_of_mem {α : Type} {m : List (String × α)} {k : String} {v : α}
    (hnd : NodupKeys m) (h : (k, v) ∈ m) : alookup k m = some v := by
  induction m with
  | nil => cases h
  | cons q rest ih =>
    obtain ⟨k', v'⟩ := q
    unfold NodupKeys at hnd
    simp only [List.map_cons, List.nodup_cons] at hnd
    rcases List.mem_cons.mp h with h | h
    · injection h with h1 h2
      simp [alookup, h1.symm, h2.symm]
    · have hne : k' ≠ k := by
        intro hkk
        exact hnd.1 (hkk ▸ (List.mem_map.mpr ⟨(k, v), h, rfl⟩))
      simp only [alookup, hne, if_false]
      exact ih hnd.2 h


theorem alookup_mem {α : Type} {m : List (String × α)} {k : String} {v : α}
    (h : alookup k m = some v) : (k, v) ∈ m := by
  induction m with
  | nil => cases h
  | cons q rest ih =>
    obtain ⟨k', v'⟩ := q
    by_cases hk : k' = k
    · subst hk
      rw [alookup, if_pos rfl] at h
      injection h with h'
      exact h' ▸ List.mem_cons_self _ _
    · rw [alookup, if_neg hk] at h
      exact List.mem_cons_of_mem _ (ih h)


theorem routeAll_dedup_combined {i : Nat} {cfg : SourceCfg} {kl : List Event}
    (hdup : cfg.filterDuplicates = true) :
    ∀ acc : Accum, (routeAll i cfg kl acc).combined = acc.combined := by
  induction kl with
  | nil => intro acc; rfl
  | cons ev evs ih =>
    intro acc
    unfold routeAll
    rw [hdup, if_pos rfl]
    exact ih _


theorem routeAll_nondedup {i : Nat} {cfg : SourceCfg} {kl : List Event}
    (hdup : cfg.filterDuplicates = false) :
    ∀ acc : Accum, (routeAll i cfg kl acc).temp = acc.temp ∧
      (routeAll i cfg kl acc).combined = acc.combined ++ tag i kl := by
  induction kl with
  | nil => intro acc; simp [routeAll, tag]
  | cons ev evs ih =>
    intro acc
    unfold routeAll
    rw [hdup]
    simp only [Bool.false_eq_true, if_false]
    obtain ⟨h1, h2⟩ := ih { acc with combined := acc.combined ++ [(i, ev)] }
    refine ⟨h1, ?_⟩
    rw [h2]
    simp [tag]


theorem routeAll_nodupKeys {i : Nat} {cfg : SourceCfg} {kl : List Event} :
    ∀ acc : Accum, NodupKeys acc.temp → NodupKeys (routeAll i cfg kl acc).temp := by
  induction kl with
  | nil => intro acc h; exact h
  | cons ev evs ih =>
    intro acc h
    unfold routeAll
    by_cases hdup : cfg.filterDuplicates = true
    · rw [hdup, if_pos rfl]
      exact ih _ (nodupKeys_dictSet _ _ h)
    · rw [if_neg hdup]
      exact ih _ h


theorem routeAll_temp_mem {i : Nat} {cfg : SourceCfg} {kl : List Event}
    {q : String × (Nat × Event)} (hu : ∀ ev ∈ kl, ev.uid.isSome = true) :
    ∀ acc : Accum, q ∈ (routeAll i cfg kl acc).temp →
      q ∈ acc.temp ∨
        (cfg.filterDuplicates = true ∧ q.2.1 = i ∧ q.2.2.uid = some q.1) := by
  induction kl with
  | nil => intro acc h; exact Or.inl h
  | cons ev evs ih =>
    intro acc h
    have hrest : ∀ x ∈ evs, x.uid.isSome = true :=
      fun x hx => hu x (List.mem_cons_of_mem _ hx)
    unfold routeAll at h
    by_cases hdup : cfg.filterDuplicates = true
    · rw [hdup, if_pos rfl] at h
      rcases ih hrest _ h with h' | h'
      · rcases mem_dictSet h' with h'' | h''
        · right
          obtain ⟨k', hk'⟩ := Option.isSome_iff_exists.mp (hu ev (List.mem_cons_self _ _))
          refine ⟨hdup, ?_, ?_⟩
          · rw [h'']
          · rw [h'', hk']
            simp [hk']
        · exact Or.inl h''
      · exact Or.inr h'
    · rw [if_neg hdup] at h
      rcases ih hrest _ h with h' | h'
      · exact Or.inl h'
      · exact Or.inr h'




theorem routeAll_cons_dedup {i : Nat} {cfg : SourceCfg} {ev : Event}
    {evs : List Event} {acc : Accum} {uu : String}
    (hdup : cfg.filterDuplicates = true) (huid : ev.uid = some uu) :
    routeAll i cfg (ev :: evs) acc
      = routeAll i cfg evs { acc with temp := dictSet acc.temp uu (i, ev) } := by
  show (if cfg.filterDuplicates = true then
          routeAll i cfg evs { acc with temp := dictSet acc.temp (ev.uid.getD "") (i, ev) }
        else routeAll i cfg evs { acc with combined := acc.combined ++ [(i, ev)] })
      = routeAll i cfg evs { acc with temp := dictSet acc.temp uu (i, ev) }
  rw [hdup, if_pos rfl, huid, Option.getD_some]


theorem routeAll_cons_nondedup {i : Nat} {cfg : SourceCfg} {ev : Event}
    {evs : List Event} {acc : Accum} (hdup : cfg.filterDuplicates = false) :
    routeAll i cfg (ev :: evs) acc
      = routeAll i cfg evs { acc with combined := acc.combined ++ [(i, ev)] } := by
  show (if cfg.filterDuplicates = true then
          routeAll i cfg evs { acc with temp := dictSet acc.temp (ev.uid.getD "") (i, ev) }
        else routeAll i cfg evs { acc with combined := acc.combined ++ [(i, ev)] })
      = routeAll i cfg evs { acc with combined := acc.combined ++ [(i, ev)] }
  rw [hdup, if_neg (by simp)]


theorem lastWith_cons (u : String) (ev : Event) (evs : List Event) :
    lastWith u (ev :: evs)
      = match lastWith u evs with
        | some x => some x
        | none => if ev.uid = some u then some ev else none := rfl


theorem routeAll_dedup_alookup (i : Nat) {cfg : SourceCfg} {kl : List Event}
    {u : String} (hdup : cfg.filterDuplicates = true)
    (hu : ∀ ev ∈ kl, ev.uid.isSome = true) :
    ∀ acc : Accum,
      (∀ x, lastWith u kl = some x →
        alookup u (routeAll i cfg kl acc).temp = some (i, x)) ∧
      (lastWith u kl = none →
        alookup u (routeAll i cfg kl acc).temp = alookup u acc.temp) := by
  induction kl with
  | nil =>
    intro acc
    refine ⟨?_, ?_⟩
    · intro x hx
      exact Option.noConfusion hx
    · intro _
      rfl
  | cons ev evs ih =>
    intro acc
    have hev := hu ev (List.mem_cons_self _ _)
    have hrest : ∀ x ∈ evs, x.uid.isSome = true :=
      fun x hx => hu x (List.mem_cons_of_mem _ hx)
    obtain ⟨uu, huid⟩ := Option.isSome_iff_exists.mp hev
    rw [routeAll_cons_dedup hdup huid]
    refine ⟨?_, ?_⟩
    · intro x hx
      rw [lastWith_cons] at hx
      cases hl : lastWith u evs with
      | some y =>
        rw [hl] at hx
        injection hx with hxy
        rw [← hxy]
        exact (ih hrest _).1 y hl
      | none =>
        rw [hl] at hx
        by_cases huu : ev.uid = some u
        · rw [if_pos huu] at hx
          injection hx with hxy
          rw [(ih hrest _).2 hl]
          have huuq : uu = u := by
            rw [huid] at huu
            injection huu
          subst huuq
          rw [← hxy]
          exact alookup_dictSet_self _ _ _
        · rw [if_neg huu] at hx
          exact Option.noConfusion hx
    · intro hx
      rw [lastWith_cons] at hx
      cases hl : lastWith u evs with
      | some y => rw [hl] at hx; exact Option.noConfusion hx
      | none =>
        rw [hl] at hx
        by_cases huu : ev.uid = some u
        · rw [if_pos huu] at hx
          exact Option.noConfusion hx
        · rw [(ih hrest _).2 hl]
          have hne : u ≠ uu := fun hcontra => huu (by rw [huid, hcontra])
          exact alookup_dictSet_ne _ _ _ _ hne


theorem processEvents_decomp {i : Nat} {cfg : SourceCfg} {today w : Int}
    {evs : List Event} {acc acc' : Accum}
    (h : processEvents i cfg today w evs acc = .ok acc') :
    ∃ kl, transKept cfg today w evs = .ok kl ∧ acc' = routeAll i cfg kl acc ∧
      (cfg.filterDuplicates = true → ∀ ev ∈ kl, ev.uid.isSome = true) := by
  induction evs generalizing acc with
  | nil =>
    refine ⟨[], rfl, ?_, fun _ x hx => absurd hx (List.not_mem_nil x)⟩
    unfold processEvents at h
    injection h with h'
    rw [h']
    rfl
  | cons e es ih =>
    unfold processEvents at h
    simp only [Bind.bind, Except.bind] at h
    split at h
    · exact Except.noConfusion h
    · next o ht =>
      cases o with
      | none =>
        obtain ⟨kl, hkl, hacc, hcoh⟩ := ih h
        refine ⟨kl, ?_, hacc, hcoh⟩
        unfold transKept
        simp only [ht, Bind.bind, Except.bind, hkl]
        rfl
      | some ev =>
        simp only [] at h
        split at h
        · exact Except.noConfusion h
        · next acc1 hr =>
          obtain ⟨kl, hkl, hacc, hcoh⟩ := ih h
          unfold routeEvent at hr
          by_cases hdup : cfg.filterDuplicates = true
          · rw [hdup, if_pos rfl] at hr
            cases huid : ev.uid with
            | none => rw [huid] at hr; exact Except.noConfusion hr
            | some uu =>
              rw [huid] at hr
              injection hr with hr'
              refine ⟨ev :: kl, ?_, ?_, ?_⟩
              · unfold transKept
                simp only [ht, Bind.bind, Except.bind, hkl]
                rfl
              · rw [hacc, routeAll_cons_dedup hdup huid, hr']
              · intro _ ev' hmem
                rcases List.mem_cons.mp hmem with h' | h'
                · rw [h', huid]; rfl
                · exact hcoh hdup ev' h'
          · rw [if_neg hdup] at hr
            injection hr with hr'
            have hdup' : cfg.filterDuplicates = false := by
              cases hflag : cfg.filterDuplicates
              · rfl
              · exact absurd hflag hdup
            refine ⟨ev :: kl, ?_, ?_, ?_⟩
            · unfold transKept
              simp only [ht, Bind.bind, Except.bind, hkl]
              rfl
            · rw [hacc, routeAll_cons_nondedup hdup', hr']
            · intro hcontra
              exact absurd hcontra hdup


theorem stagedAfter_extract {show0 hide : Option (List Int)} {today w : Int}
    {u : String} :
    ∀ (srcs : List (SourceCfg × FetchOutcome)) (n : Nat)
      (cur : Option (Nat × Event)) (j : Nat) (ev : Event),
      stagedAfter show0 hide today w u srcs n cur = some (j, ev) →
      cur = some (j, ev) ∨
        ∃ m cfg evs kl, srcs[m]? = some (cfg, .events evs) ∧ j = n + m ∧
          cfg.filterDuplicates = true ∧ transKept cfg today w evs = .ok kl ∧
          lastWith u kl = some ev := by
  intro srcs
  induction srcs with
  | nil =>
    intro n cur j ev h
    exact Or.inl h
  | cons src rest ih =>
    obtain ⟨cfg, out⟩ := src
    intro n cur j ev h
    unfold stagedAfter at h
    rcases ih (n + 1) _ j ev h with hcur' | ⟨m, cfg', evs', kl', hsrc, hj, hflag, hkept, hlast⟩
    · split at hcur'
      · next hcond =>
        cases out with
        | events evs =>
          simp only [] at hcur'
          cases hkept : transKept cfg today w evs with
          | ok kl =>
            simp only [hkept] at hcur'
            cases hlast : lastWith u kl with
            | some x =>
              simp only [hlast] at hcur'
              injection hcur' with h1
              right
              refine ⟨0, cfg, evs, kl, by simp, ?_, hcond.2.2, hkept, ?_⟩
              · injection h1 with hj hev
                omega
              · injection h1 with hj hev
                rw [hlast, hev]
            | none =>
              simp only [hlast] at hcur'
              exact Or.inl hcur'
          | error err =>
            simp only [hkept] at hcur'
            exact Or.inl hcur'
        | fetchFail => exact Or.inl hcur'
        | parseFail => exact Or.inl hcur'
      · exact Or.inl hcur'
    · right
      refine ⟨m + 1, cfg', evs', kl', ?_, by omega, hflag, hkept, hlast⟩
      simpa using hsrc


theorem mem_tag {i : Nat} {l : List Event} {p : Nat × Event} (h : p ∈ tag i l) :
    p.1 = i ∧ p.2 ∈ l := by
  unfold tag at h
  obtain ⟨a, ha, hfa⟩ := List.mem_map.mp h
  rw [← hfa]
  exact ⟨rfl, ha⟩


theorem filter_nil_of {α : Type} (pred : α → Bool) :
    ∀ l : List α, (∀ a ∈ l, pred a = false) → l.filter pred = [] := by
  intro l
  induction l with
  | nil => intro _; rfl
  | cons a l ih =>
    intro h
    rw [List.filter_cons, h a (List.mem_cons_self _ _)]
    simp only [Bool.false_eq_true, if_false]
    exact ih (fun x hx => h x (List.mem_cons_of_mem _ hx))


theorem filter_all_of {α : Type} (pred : α → Bool) :
    ∀ l : List α, (∀ a ∈ l, pred a = true) → l.filter pred = l := by
  intro l
  induction l with
  | nil => intro _; rfl
  | cons a l ih =>
    intro h
    rw [List.filter_cons, h a (List.mem_cons_self _ _)]
    simp only [if_true]
    rw [ih (fun x hx => h x (List.mem_cons_of_mem _ hx))]


theorem stagedAfter_cons {show0 hide : Option (List Int)} {today w : Int}
    {u : String} {cfg : SourceCfg} {out : FetchOutcome}
    {rest : List (SourceCfg × FetchOutcome)} {n : Nat} {cur : Option (Nat × Event)} :
    stagedAfter show0 hide today w u ((cfg, out) :: rest) n cur
      = stagedAfter show0 hide today w u rest (n + 1)
          (if cfg.id ≠ none ∧ selected show0 hide (cfg.id.getD 0) = true ∧
              cfg.filterDuplicates = true then
            match out with
            | .events evs =>
                match transKept cfg today w evs with
                | .ok kl =>
                    match lastWith u kl with
                    | some ev => some (n, ev)
                    | none => cur
                | .error _ => cur
            | _ => cur
          else cur) := rfl


theorem runSources_master {show0 hide : Option (List Int)} {today w : Int} :
    ∀ (srcs : List (SourceCfg × FetchOutcome)) (n : Nat) (acc : Accum)
      (tr tr' : List Nat) (acc' : Accum),
      runSources show0 hide today w srcs n acc tr = (tr', .ok (.done acc')) →
      (∀ u, alookup u acc'.temp
          = stagedAfter show0 hide today w u srcs n (alookup u acc.temp)) ∧
      (∃ newC, acc'.combined = acc.combined ++ newC ∧
         ∀ p ∈ newC, n ≤ p.1 ∧
           ∃ cfgp outp, srcs[p.1 - n]? = some (cfgp, outp) ∧
             cfgp.filterDuplicates = false) ∧
      (∀ q ∈ acc'.temp, q ∈ acc.temp ∨
         (q.2.2.uid = some q.1 ∧ n ≤ q.2.1 ∧
           ∃ cfgq outq, srcs[q.2.1 - n]? = some (cfgq, outq) ∧
             cfgq.filterDuplicates = true)) ∧
      (NodupKeys acc.temp → NodupKeys acc'.temp) ∧
      (∀ m cfgm evsm, srcs[m]? = some (cfgm, .events evsm) → cfgm.id ≠ none →
         selected show0 hide (cfgm.id.getD 0) = true → cfgm.filterDuplicates = false →
         ∃ kl, transKept cfgm today w evsm = .ok kl ∧
           acc'.combined.filter (fun p => p.1 = n + m) =
             acc.combined.filter (fun p => p.1 = n + m) ++ tag (n + m) kl) := by
  intro srcs
  induction srcs with
  | nil =>
    intro n acc tr tr' acc' h
    unfold runSources at h
    injection h with h1 h2
    injection h2 with h2
    injection h2 with h2
    subst h2
    refine ⟨fun u => rfl, ⟨[], by simp, by simp⟩, fun q hq => Or.inl hq, id, ?_⟩
    intro m cfgm evsm hm
    simp at hm
  | cons src rest ih =>
    obtain ⟨cfg, out⟩ := src
    intro n acc tr tr' acc' h
    unfold runSources at h
    by_cases hid : cfg.id = none
    · rw [if_pos hid] at h
      injection h with h1 h2
      injection h2 with h2
      exact LoopResult.noConfusion h2
    · rw [if_neg hid] at h
      by_cases hsel : selected show0 hide (cfg.id.getD 0) = true
      · rw [if_pos hsel] at h
        cases out with
        | fetchFail =>
          injection h with h1 h2
          injection h2 with h2
          exact LoopResult.noConfusion h2
        | parseFail =>
          injection h with h1 h2
          injection h2 with h2
          exact LoopResult.noConfusion h2
        | events evs =>
          cases hpe : processEvents n cfg today w evs acc with
          | error err =>
            simp only [hpe] at h
            injection h with h1 h2
            exact Except.noConfusion h2
          | ok acc2 =>
            simp only [hpe] at h
            obtain ⟨kl, hkl, hacc2, hcoh⟩ := processEvents_decomp hpe
            obtain ⟨ihA, ⟨newC, hnewC, hnewC2⟩, ihC, ihD, ihE⟩ :=
              ih (n + 1) acc2 (tr ++ [n]) tr' acc' h
            by_cases hdup : cfg.filterDuplicates = true
            · -- duplicate-filtering source: events staged into the dict
              have hcombined2 : acc2.combined = acc.combined := by
                rw [hacc2]; exact routeAll_dedup_combined hdup acc
              refine ⟨?_, ?_, ?_, ?_, ?_⟩
              · intro u
                rw [ihA u, stagedAfter_cons]
                congr 1
                rw [if_pos ⟨hid, hsel, hdup⟩]
                simp only [hkl]
                cases hl : lastWith u kl with
                | some x =>
                  simp only [hl]
                  rw [hacc2]
                  exact (routeAll_dedup_alookup n hdup (hcoh hdup) acc).1 x hl
                | none =>
                  simp only [hl]
                  rw [hacc2]
                  exact (routeAll_dedup_alookup n hdup (hcoh hdup) acc).2 hl
              · refine ⟨newC, by rw [hnewC, hcombined2], ?_⟩
                intro p hp
                obtain ⟨hle, cfgp, outp, hsrc, hflag⟩ := hnewC2 p hp
                refine ⟨by omega, cfgp, outp, ?_, hflag⟩
                have : p.1 - n = (p.1 - (n + 1)) + 1 := by omega
                rw [this, List.getElem?_cons_succ]
                exact hsrc
              · intro q hq
                rcases ihC q hq with hq2 | ⟨hcohq, hle, cfgq, outq, hsrc, hflag⟩
                · rw [hacc2] at hq2
                  rcases routeAll_temp_mem (hcoh hdup) acc hq2 with hq3 | ⟨_, hprov, huid⟩
                  · exact Or.inl hq3
                  · right
                    refine ⟨huid, by omega, cfg, .events evs, ?_, hdup⟩
                    rw [hprov]
                    simp
                · right
                  refine ⟨hcohq, by omega, cfgq, outq, ?_, hflag⟩
                  have : q.2.1 - n = (q.2.1 - (n + 1)) + 1 := by omega
                  rw [this, List.getElem?_cons_succ]
                  exact hsrc
              · intro hnd
                apply ihD
                rw [hacc2]
                exact routeAll_nodupKeys acc hnd
              · intro m cfgm evsm hm hidm hselm hdupm
                cases m with
                | zero =>
                  rw [List.getElem?_cons_zero] at hm
                  injection hm with hm
                  injection hm with hm1 hm2
                  rw [← hm1] at hdupm
                  exact absurd hdup (by rw [hdupm]; simp)
                | succ m' =>
                  rw [List.getElem?_cons_succ] at hm
                  obtain ⟨kl', hkl', hfil⟩ := ihE m' cfgm evsm hm hidm hselm hdupm
                  refine ⟨kl', hkl', ?_⟩
                  have harith : n + (m' + 1) = (n + 1) + m' := by omega
                  rw [harith, hfil, hcombined2]
            · -- pass-through source: events appended to the combined calendar
              have hdup' : cfg.filterDuplicates = false := by
                cases hflag : cfg.filterDuplicates
                · rfl
                · exact absurd hflag hdup
              obtain ⟨htemp2, hcombined2⟩ := hacc2 ▸ routeAll_nondedup hdup' acc
              refine ⟨?_, ?_, ?_, ?_, ?_⟩
              · intro u
                rw [ihA u, stagedAfter_cons]
                congr 1
                rw [if_neg (by
                  intro hcond
                  exact absurd hdup' (by rw [hcond.2.2]; simp))]
                rw [htemp2]
              · refine ⟨tag n kl ++ newC, ?_, ?_⟩
                · rw [hnewC, hcombined2, List.append_assoc]
                · intro p hp
                  rcases List.mem_append.mp hp with hp | hp
                  · obtain ⟨hfst, _⟩ := mem_tag hp
                    refine ⟨by omega, cfg, .events evs, ?_, hdup'⟩
                    rw [hfst]
                    simp
                  · obtain ⟨hle, cfgp, outp, hsrc, hflag⟩ := hnewC2 p hp
                    refine ⟨by omega, cfgp, outp, ?_, hflag⟩
                    have : p.1 - n = (p.1 - (n + 1)) + 1 := by omega
                    rw [this, List.getElem?_cons_succ]
                    exact hsrc
              · intro q hq
                rcases ihC q hq with hq2 | ⟨hcohq, hle, cfgq, outq, hsrc, hflag⟩
                · rw [htemp2] at hq2
                  exact Or.inl hq2
                · right
                  refine ⟨hcohq, by omega, cfgq, outq, ?_, hflag⟩
                  have : q.2.1 - n = (q.2.1 - (n + 1)) + 1 := by omega
                  rw [this, List.getElem?_cons_succ]
                  exact hsrc
              · intro hnd
                apply ihD
                rw [htemp2]
                exact hnd
              · intro m cfgm evsm hm hidm hselm hdupm
                cases m with
                | zero =>
                  rw [List.getElem?_cons_zero] at hm
                  injection hm with hm
                  injection hm with hm1 hm2
                  injection hm2 with hm2
                  refine ⟨kl, by rw [← hm1, ← hm2]; exact hkl, ?_⟩
                  have hnz : n + 0 = n := by omega
                  obtain ⟨newC2, hC2, hC2mem⟩ : ∃ nc, acc'.combined = acc2.combined ++ nc ∧
                      ∀ p ∈ nc, n + 1 ≤ p.1 := ⟨newC, hnewC, fun p hp => (hnewC2 p hp).1⟩
                  rw [hC2, hcombined2, hnz]
                  rw [List.filter_append, List.filter_append]
                  have h1 : newC2.filter (fun p => p.1 = n) = [] := by
                    apply filter_nil_of
                    intro p hp
                    have := hC2mem p hp
                    simp only [decide_eq_false_iff_not]
                    omega
                  have h2 : (tag n kl).filter (fun p => p.1 = n) = tag n kl := by
                    apply filter_all_of
                    intro p hp
                    obtain ⟨hfst, _⟩ := mem_tag hp
                    simp [hfst]
                  rw [h1, h2, List.append_nil]
                | succ m' =>
                  rw [List.getElem?_cons_succ] at hm
                  obtain ⟨kl', hkl', hfil⟩ := ihE m' cfgm evsm hm hidm hselm hdupm
                  refine ⟨kl', hkl', ?_⟩
                  have harith : n + (m' + 1) = (n + 1) + m' := by omega
                  rw [harith, hfil, hcombined2]
                  rw [List.filter_append]
                  have h1 : (tag n kl).filter (fun p => p.1 = (n + 1) + m') = [] := by
                    apply filter_nil_of
                    intro p hp
                    obtain ⟨hfst, _⟩ := mem_tag hp
                    simp only [decide_eq_false_iff_not]
                    omega
                  rw [h1, List.append_nil]
      · rw [if_neg hsel] at h
        obtain ⟨ihA, ⟨newC, hnewC, hnewC2⟩, ihC, ihD, ihE⟩ :=
          ih (n + 1) acc tr tr' acc' h
        refine ⟨?_, ?_, ?_, ihD, ?_⟩
        · intro u
          rw [ihA u, stagedAfter_cons]
          rw [if_neg (by
            intro hcond
            exact hsel hcond.2.1)]
        · refine ⟨newC, hnewC, ?_⟩
          intro p hp
          obtain ⟨hle, cfgp, outp, hsrc, hflag⟩ := hnewC2 p hp
          refine ⟨by omega, cfgp, outp, ?_, hflag⟩
          have : p.1 - n = (p.1 - (n + 1)) + 1 := by omega
          rw [this, List.getElem?_cons_succ]
          exact hsrc
        · intro q hq
          rcases ihC q hq with hq2 | ⟨hcohq, hle, cfgq, outq, hsrc, hflag⟩
          · exact Or.inl hq2
          · right
            refine ⟨hcohq, by omega, cfgq, outq, ?_, hflag⟩
            have : q.2.1 - n = (q.2.1 - (n + 1)) + 1 := by omega
            rw [this, List.getElem?_cons_succ]
            exact hsrc
        · intro m cfgm evsm hm hidm hselm hdupm
          cases m with
          | zero =>
            rw [List.getElem?_cons_zero] at hm
            injection hm with hm
            injection hm with hm1 hm2
            rw [← hm1] at hselm
            exact absurd hselm hsel
          | succ m' =>
            rw [List.getElem?_cons_succ] at hm
            obtain ⟨kl', hkl', hfil⟩ := ihE m' cfgm evsm hm hidm hselm hdupm
            refine ⟨kl', hkl', ?_⟩
            have harith : n + (m' + 1) = (n + 1) + m' := by omega
            rw [harith, hfil]


theorem countP_le_one_temp {m : List (String × (Nat × Event))} {u : String}
    (P : Nat × Event → Bool) :
    NodupKeys m → (∀ q ∈ m, P q.2 = true → q.1 = u) →
    m.countP (fun q => P q.2) ≤ 1 := by
  induction m with
  | nil => intro _ _; simp
  | cons q rest ih =>
    intro hnd hP
    unfold NodupKeys at hnd
    simp only [List.map_cons, List.nodup_cons] at hnd
    cases hq : P q.2 with
    | false =>
      rw [List.countP_cons_of_neg _ _ (by simp [hq])]
      exact ih hnd.2 (fun x hx hPx => hP x (List.mem_cons_of_mem _ hx) hPx)
    | true =>
      rw [List.countP_cons_of_pos _ _ (by simp [hq])]
      have hqu : q.1 = u := hP q (List.mem_cons_self _ _) hq
      have hzero : rest.countP (fun x => P x.2) = 0 := by
        rw [List.countP_eq_zero]
        intro x hx
        simp only [Bool.not_eq_true]
        cases hPx : P x.2 with
        | false => rfl
        | true =>
          exfalso
          have hxu : x.1 = u := hP x (List.mem_cons_of_mem _ hx) hPx
          exact hnd.1 (by
            rw [hqu, ← hxu]
            exact List.mem_map.mpr ⟨x, hx, rfl⟩)
      omega


theorem map_snd_tag (i : Nat) (l : List Event) : (tag i l).map Prod.snd = l := by
  unfold tag
  rw [List.map_map]
  simp


/-- C3-claim: within a duplicate-filtering source, at most one event per
final identifier survives into the accumulated output and it is the last
kept event of that source with that identifier; a source without the flag
has each of its kept events appended directly, duplicates retained. -/
theorem dedup_last_wins :
    (∀ (show0 hide : Option (List Int)) (today w : Int)
        (srcs : List (SourceCfg × FetchOutcome)) (tr : List Nat) (acc : Accum)
        (i : Nat) (cfg : SourceCfg) (evs : List Event) (u : String),
        runSources show0 hide today w srcs 0 {} [] = (tr, .ok (.done acc)) →
        srcs[i]? = some (cfg, .events evs) → cfg.filterDuplicates = true →
        ((outputTagged acc).countP
            (fun p => decide (p.1 = i) && decide (p.2.uid = some u)) ≤ 1 ∧
         ∀ p ∈ outputTagged acc, p.1 = i → p.2.uid = some u →
           ∃ kl, transKept cfg today w evs = .ok kl ∧ lastWith u kl = some p.2)) ∧
    (∀ (show0 hide : Option (List Int)) (today w : Int)
        (srcs : List (SourceCfg × FetchOutcome)) (tr : List Nat) (acc : Accum)
        (i : Nat) (cfg : SourceCfg) (evs : List Event),
        runSources show0 hide today w srcs 0 {} [] = (tr, .ok (.done acc)) →
        srcs[i]? = some (cfg, .events evs) → cfg.filterDuplicates = false →
        cfg.id ≠ none → selected show0 hide (cfg.id.getD 0) = true →
        ∃ kl, transKept cfg today w evs = .ok kl ∧
          ((outputTagged acc).filter (fun p => p.1 = i)).map Prod.snd = kl) := by
  constructor
  · intro show0 hide today w srcs tr acc i cfg evs u h hsrc hdup
    obtain ⟨mA, ⟨newC, hnewC, hnewCP⟩, mC, mD, mE⟩ :=
      runSources_master srcs 0 {} [] tr acc h
    have hcombined : acc.combined = newC := by simpa using hnewC
    have hnd : NodupKeys acc.temp := mD (by simp [NodupKeys])
    have hnoC : ∀ p ∈ acc.combined, ¬(p.1 = i ∧ p.2.uid = some u) := by
      intro p hp hcontra
      rw [hcombined] at hp
      obtain ⟨_, cfgp, outp, hsrcp, hflagp⟩ := hnewCP p hp
      rw [Nat.sub_zero, hcontra.1, hsrc] at hsrcp
      injection hsrcp with hsrcp
      injection hsrcp with h1 h2
      rw [h1, hflagp] at hdup
      exact Bool.noConfusion hdup
    constructor
    · unfold outputTagged
      rw [List.countP_append]
      have hc0 : acc.combined.countP
          (fun p => decide (p.1 = i) && decide (p.2.uid = some u)) = 0 := by
        rw [List.countP_eq_zero]
        intro p hp
        have := hnoC p hp
        simp only [Bool.and_eq_true, decide_eq_true_eq, Bool.not_eq_true]
        cases hd1 : decide (p.1 = i) <;> cases hd2 : decide (p.2.uid = some u) <;>
          simp_all
      have hc1 : (acc.temp.map Prod.snd).countP
          (fun p => decide (p.1 = i) && decide (p.2.uid = some u)) ≤ 1 := by
        rw [List.countP_map]
        have hco : ∀ q ∈ acc.temp,
            (fun p : Nat × Event => decide (p.1 = i) && decide (p.2.uid = some u)) q.2
              = true → q.1 = u := by
          intro q hq hPq
          simp only [Bool.and_eq_true, decide_eq_true_eq] at hPq
          rcases mC q hq with hq0 | ⟨hcoh, _, _⟩
          · simp at hq0
          · rw [hPq.2] at hcoh
            injection hcoh with hcoh2
            exact hcoh2.symm
        simpa [Function.comp] using
          countP_le_one_temp
            (fun p : Nat × Event => decide (p.1 = i) && decide (p.2.uid = some u)) hnd hco
      omega
    · intro p hp hpi hpu
      unfold outputTagged at hp
      rcases List.mem_append.mp hp with hp | hp
      · exact absurd ⟨hpi, hpu⟩ (hnoC p hp)
      · obtain ⟨q, hq, hqp⟩ := List.mem_map.mp hp
        rcases mC q hq with hq0 | ⟨hcoh, _, _⟩
        · simp at hq0
        · have hq1 : q.1 = u := by
            rw [hqp] at hcoh
            rw [hpu] at hcoh
            injection hcoh with hcoh
            exact hcoh.symm
          have hmem : (u, p) ∈ acc.temp := by
            have : q = (u, p) := by
              obtain ⟨q1, q2⟩ := q
              simp only at hq1 hqp
              rw [hq1, hqp]
            rw [← this]
            exact hq
          have hlook : alookup u acc.temp = some p := alookup_eq_of_mem hnd hmem
          rw [mA u] at hlook
          have hp_eta : p = (i, p.2) := by
            obtain ⟨p1, p2⟩ := p
            simp only at hpi
            rw [hpi]
          rw [hp_eta] at hlook
          rcases stagedAfter_extract srcs 0 _ i p.2 hlook with hcur | hex
          · exact Option.noConfusion hcur
          · obtain ⟨m, cfg', evs', kl, hsrc', hj, _, hkept, hlast⟩ := hex
            have hmi : m = i := by omega
            rw [hmi, hsrc] at hsrc'
            injection hsrc' with hsrc'
            injection hsrc' with h1 h2
            injection h2 with h2
            refine ⟨kl, ?_, hlast⟩
            rw [h1, h2]
            exact hkept
  · intro show0 hide today w srcs tr acc i cfg evs h hsrc hdup hid hsel
    obtain ⟨mA, ⟨newC, hnewC, hnewCP⟩, mC, mD, mE⟩ :=
      runSources_master srcs 0 {} [] tr acc h
    obtain ⟨kl, hkl, hfil⟩ := mE i cfg evs hsrc hid hsel hdup
    refine ⟨kl, hkl, ?_⟩
    unfold outputTagged
    rw [List.filter_append]
    have htempnil : (acc.temp.map Prod.snd).filter (fun p => p.1 = i) = [] := by
      apply filter_nil_of
      intro x hx
      obtain ⟨q, hq, hqx⟩ := List.mem_map.mp hx
      rcases mC q hq with hq0 | ⟨_, _, cfgq, outq, hsrcq, hflagq⟩
      · simp at hq0
      · simp only [decide_eq_false_iff_not]
        intro hxi
        rw [Nat.sub_zero] at hsrcq
        rw [← hqx] at hxi
        rw [hxi, hsrc] at hsrcq
        injection hsrcq with hsrcq
        injection hsrcq with h1 _
        rw [h1] at hdup
        rw [hdup] at hflagq
        exact Bool.noConfusion hflagq
    rw [htempnil, List.append_nil]
    have : acc.combined.filter (fun p => p.1 = i)
        = ({} : Accum).combined.filter (fun p => p.1 = i) ++ tag i kl := by
      have h0 : (0 : Nat) + i = i := by omega
      rw [← h0]
      exact hfil
    rw [this]
    simp only [List.filter_nil, List.nil_append]
    exact map_snd_tag i kl


/-! ## Loop composition and fetch-trace lemmas (configuration errors) -/

theorem runSources_cons {show0 hide : Option (List Int)} {today w : Int}
    {cfg : SourceCfg} {out : FetchOutcome} {rest : List (SourceCfg × FetchOutcome)}
    {n : Nat} {acc : Accum} {tr : List Nat} :
    runSources show0 hide today w ((cfg, out) :: rest) n acc tr
      = if cfg.id = none then (tr, .ok (.early .configError))
        else if selected show0 hide (cfg.id.getD 0) = true then
          match out with
          | .fetchFail => (tr ++ [n], .ok (.early (.fetchError cfg.id)))
          | .parseFail => (tr ++ [n], .ok (.early (.parseError cfg.id)))
          | .events evs =>
              match processEvents n cfg today w evs acc with
              | .error err => (tr ++ [n], .error err)
              | .ok acc2 => runSources show0 hide today w rest (n + 1) acc2 (tr ++ [n])
        else runSources show0 hide today w rest (n + 1) acc tr := rfl


theorem runSources_append {show0 hide : Option (List Int)} {today w : Int} :
    ∀ (l1 l2 : List (SourceCfg × FetchOutcome)) (n : Nat) (acc : Accum)
      (tr tr' : List Nat) (acc' : Accum),
      runSources show0 hide today w l1 n acc tr = (tr', .ok (.done acc')) →
      runSources show0 hide today w (l1 ++ l2) n acc tr
        = runSources show0 hide today w l2 (n + l1.length) acc' tr' := by
  intro l1
  induction l1 with
  | nil =>
    intro l2 n acc tr tr' acc' h
    unfold runSources at h
    injection h with h1 h2
    injection h2 with h2
    injection h2 with h2
    subst h1
    subst h2
    simp
  | cons src rest ih =>
    obtain ⟨cfg, out⟩ := src
    intro l2 n acc tr tr' acc' h
    rw [runSources_cons] at h
    rw [List.cons_append, runSources_cons]
    by_cases hid : cfg.id = none
    · rw [if_pos hid] at h
      injection h with h1 h2
      injection h2 with h2
      exact LoopResult.noConfusion h2
    · rw [if_neg hid] at h ⊢
      by_cases hsel : selected show0 hide (cfg.id.getD 0) = true
      · rw [if_pos hsel] at h ⊢
        cases out with
        | fetchFail =>
          injection h with h1 h2
          injection h2 with h2
          exact LoopResult.noConfusion h2
        | parseFail =>
          injection h with h1 h2
          injection h2 with h2
          exact LoopResult.noConfusion h2
        | events evs =>
          cases hpe : processEvents n cfg today w evs acc with
          | error err =>
            simp only [hpe] at h
            injection h with h1 h2
            exact Except.noConfusion h2
          | ok acc2 =>
            simp only [hpe] at h ⊢
            simp only [List.length_cons]
            rw [ih l2 (n + 1) acc2 (tr ++ [n]) tr' acc' h]
            have harith : n + 1 + rest.length = n + (rest.length + 1) := by omega
            rw [harith]
      · rw [if_neg hsel] at h ⊢
        simp only [List.length_cons]
        rw [ih l2 (n + 1) acc tr tr' acc' h]
        have harith : n + 1 + rest.length = n + (rest.length + 1) := by omega
        rw [harith]


theorem runSources_trace {show0 hide : Option (List Int)} {today w : Int} :
    ∀ (srcs : List (SourceCfg × FetchOutcome)) (n : Nat) (acc : Accum)
      (tr tr' : List Nat) (res : Except PyErr LoopResult),
      runSources show0 hide today w srcs n acc tr = (tr', res) →
      ∀ t ∈ tr', t ∈ tr ∨ (n ≤ t ∧ t < n + srcs.length) := by
  intro srcs
  induction srcs with
  | nil =>
    intro n acc tr tr' res h t ht
    unfold runSources at h
    injection h with h1 _
    subst h1
    exact Or.inl ht
  | cons src rest ih =>
    obtain ⟨cfg, out⟩ := src
    intro n acc tr tr' res h t ht
    unfold runSources at h
    by_cases hid : cfg.id = none
    · rw [if_pos hid] at h
      injection h with h1 _
      subst h1
      exact Or.inl ht
    · rw [if_neg hid] at h
      by_cases hsel : selected show0 hide (cfg.id.getD 0) = true
      · rw [if_pos hsel] at h
        have step : ∀ (tr0 : List Nat), tr0 = tr ++ [n] → ∀ s ∈ tr0,
            s ∈ tr ∨ (n ≤ s ∧ s < n + (rest.length + 1)) := by
          intro tr0 htr0 s hs
          rw [htr0] at hs
          rcases List.mem_append.mp hs with hs | hs
          · exact Or.inl hs
          · right
            simp only [List.mem_singleton] at hs
            omega
        cases out with
        | fetchFail =>
          injection h with h1 _
          subst h1
          simpa using step _ rfl t ht
        | parseFail =>
          injection h with h1 _
          subst h1
          simpa using step _ rfl t ht
        | events evs =>
          cases hpe : processEvents n cfg today w evs acc with
          | error err =>
            simp only [hpe] at h
            injection h with h1 _
            subst h1
            simpa using step _ rfl t ht
          | ok acc2 =>
            simp only [hpe] at h
            rcases ih (n + 1) acc2 (tr ++ [n]) tr' res h t ht with hin | hb
            · rcases List.mem_append.mp hin with hs | hs
              · exact Or.inl hs
              · right
                simp only [List.mem_singleton] at hs
                simp only [List.length_cons]
                omega
            · right
              simp only [List.length_cons]
              omega
      · rw [if_neg hsel] at h
        rcases ih (n + 1) acc tr tr' res h t ht with hin | hb
        · exact Or.inl hin
        · right
          simp only [List.length_cons]
          omega


/-- C8-claim, amended: supplying both show and hide aborts before any source
is processed with the parameter-error message — but with HTTP status 500, a
server-error status, not a client-error one. -/
theorem both_params_abort_amended :
    ∀ (show0 hide : Option (List Int)) (today w : Int)
      (expand : String → Int → List Int) (srcs : List (SourceCfg × FetchOutcome))
      (s h : List Int), show0 = some s → hide = some h →
      get_cal show0 hide today w expand srcs = ([], .ok (.err .invalidParams 500)) := by
  intro show0 hide today w expand srcs s h hs hh
  subst hs
  subst hh
  unfold get_cal
  rw [if_pos (by simp)]


/-- C9-claim, amended: the configuration error for an identifier-less source
descriptor is produced when the loop reaches that descriptor; selected
sources earlier in the configured order have already been fetched (their
indices are in the fetch trace, all before the offending position), and if
the offending descriptor comes first, no fetch happens at all. -/
theorem config_error_at_reach_amended :
    ∀ (show0 hide : Option (List Int)) (today w : Int)
      (expand : String → Int → List Int)
      (l1 l2 : List (SourceCfg × FetchOutcome)) (cfg : SourceCfg)
      (out : FetchOutcome) (tr : List Nat) (acc : Accum),
      cfg.id = none → (show0.isSome && hide.isSome) = false →
      runSources show0 hide today w l1 0 {} [] = (tr, .ok (.done acc)) →
      get_cal show0 hide today w expand (l1 ++ (cfg, out) :: l2)
        = (tr, .ok (.err .configError 500)) ∧
      (∀ t ∈ tr, t < l1.length) ∧ (l1 = [] → tr = []) := by
  intro show0 hide today w expand l1 l2 cfg out tr acc hid hparams hrun
  refine ⟨?_, ?_, ?_⟩
  · unfold get_cal
    rw [if_neg (by simp [hparams])]
    rw [runSources_append l1 ((cfg, out) :: l2) 0 {} [] tr acc hrun]
    rw [runSources_cons, if_pos hid]
  · intro t ht
    rcases runSources_trace l1 0 {} [] tr _ hrun t ht with h0 | ⟨_, hlt⟩
    · simp at h0
    · omega
  · intro hl1
    subst hl1
    unfold runSources at hrun
    injection hrun with h1 _
    exact h1.symm


/-! ## Recurrence-set merge: sorted deduplication and grouping invariants -/

theorem mem_insertSortedNodup {x y : Int} :
    ∀ l : List Int, (y ∈ insertSortedNodup x l ↔ y = x ∨ y ∈ l) := by
  intro l
  induction l with
  | nil => simp [insertSortedNodup]
  | cons z zs ih =>
    unfold insertSortedNodup
    by_cases h1 : x < z
    · rw [if_pos h1]
      simp [List.mem_cons]
    · rw [if_neg h1]
      by_cases h2 : x = z
      · rw [if_pos h2]
        subst h2
        simp only [List.mem_cons]
        constructor
        · intro h
          exact Or.inr h
        · rintro (h | h)
          · exact Or.inl h
          · exact h
      · rw [if_neg h2]
        simp only [List.mem_cons, ih]
        tauto


theorem sorted_insertSortedNodup {x : Int} :
    ∀ l : List Int, List.Pairwise (· < ·) l →
      List.Pairwise (· < ·) (insertSortedNodup x l) := by
  intro l
  induction l with
  | nil => intro _; simp [insertSortedNodup]
  | cons z zs ih =>
    intro hs
    rw [List.pairwise_cons] at hs
    unfold insertSortedNodup
    by_cases h1 : x < z
    · rw [if_pos h1]
      rw [List.pairwise_cons]
      refine ⟨?_, List.pairwise_cons.mpr hs⟩
      intro y hy
      rcases List.mem_cons.mp hy with hy | hy
      · rw [hy]; exact h1
      · exact lt_trans h1 (hs.1 y hy)
    · rw [if_neg h1]
      by_cases h2 : x = z
      · rw [if_pos h2]
        exact List.pairwise_cons.mpr hs
      · rw [if_neg h2]
        rw [List.pairwise_cons]
        refine ⟨?_, ih hs.2⟩
        intro y hy
        rcases (mem_insertSortedNodup zs).mp hy with hy | hy
        · rw [hy]
          omega
        · exact hs.1 y hy


theorem sortedDedup_sorted (l : List Int) :
    List.Pairwise (· < ·) (sortedDedup l) := by
  unfold sortedDedup
  induction l with
  | nil => simp
  | cons x xs ih => exact sorted_insertSortedNodup _ ih


theorem mem_sortedDedup (l : List Int) (y : Int) :
    y ∈ sortedDedup l ↔ y ∈ l := by
  unfold sortedDedup
  induction l with
  | nil => simp
  | cons x xs ih =>
    rw [List.foldr_cons, mem_insertSortedNodup, ih, List.mem_cons]


theorem groupOccurrences_decomp {expand : String → Int → List Int} :
    ∀ (g : List Event) (occ : List (OccClass × Int)),
      groupOccurrences expand g = .ok occ →
      ∀ x, x ∈ occ ↔ ∃ ev ∈ g, ∃ l, memberOccurrences expand ev = .ok l ∧ x ∈ l := by
  intro g
  induction g with
  | nil =>
    intro occ h x
    injection h with h
    rw [← h]
    simp
  | cons e es ih =>
    intro occ h x
    unfold groupOccurrences at h
    simp only [Bind.bind, Except.bind] at h
    cases hm : memberOccurrences expand e with
    | error err => rw [hm] at h; exact Except.noConfusion h
    | ok l =>
      rw [hm] at h
      cases hr : groupOccurrences expand es with
      | error err => rw [hr] at h; exact Except.noConfusion h
      | ok rest =>
        rw [hr] at h
        injection h with h
        rw [← h]
        simp only [List.mem_append, List.mem_cons]
        constructor
        · rintro (hx | hx)
          · exact ⟨e, Or.inl rfl, l, hm, hx⟩
          · obtain ⟨ev, hev, l', hml, hxl⟩ := (ih rest hr x).mp hx
            exact ⟨ev, Or.inr hev, l', hml, hxl⟩
        · rintro ⟨ev, hev | hev, l', hml, hxl⟩
          · left
            subst hev
            rw [hm] at hml
            injection hml with hml
            rw [hml]
            exact hxl
          · right
            exact (ih rest hr x).mpr ⟨ev, hev, l', hml, hxl⟩


theorem mem_assocAppend {m : List (String × List Event)} {k k' : String}
    {v : Event} {g' : List Event} (h : (k', g') ∈ assocAppend m k v) :
    (∃ g0, (k', g0) ∈ m ∧ (g' = g0 ∨ (k' = k ∧ g' = g0 ++ [v]))) ∨
      (k' = k ∧ g' = [v]) := by
  unfold assocAppend at h
  split at h
  · obtain ⟨p, hp, hfp⟩ := List.mem_map.mp h
    by_cases hpk : p.1 = k
    · rw [if_pos hpk] at hfp
      left
      refine ⟨p.2, ?_, Or.inr ⟨?_, ?_⟩⟩
      · have : (k', p.2) = p := by
          injection hfp with h1 h2
          rw [← h1]
        rw [this]
        exact hp
      · injection hfp with h1 _
        rw [← h1, hpk]
      · injection hfp with _ h2
        exact h2.symm
    · rw [if_neg hpk] at hfp
      left
      refine ⟨g', ?_, Or.inl rfl⟩
      rw [← hfp]
      exact hp
  · rcases List.mem_append.mp h with h | h
    · left
      exact ⟨g', h, Or.inl rfl⟩
    · right
      simp only [List.mem_singleton] at h
      injection h with h1 h2
      exact ⟨h1, h2⟩


theorem keys_assocAppend (m : List (String × List Event)) (k : String) (v : Event) :
    (assocAppend m k v).map Prod.fst =
      if m.any (fun p => p.1 = k) then m.map Prod.fst
      else m.map Prod.fst ++ [k] := by
  unfold assocAppend
  split
  · next hany =>
    rw [List.map_map]
    apply List.map_congr_left
    intro p _
    by_cases hpk : p.1 = k
    · simp [hpk]
    · simp [hpk]
  · next hany =>
    simp


/-- The three partition invariants, carried through the accumulator fold:
group members carry their group's linkage key, group keys are distinct,
groups are nonempty, and ungrouped events carry no linkage key. -/
theorem partitionRelatedAux_inv :
    ∀ (evs : List Event) (g0 : List (String × List Event)) (o0 : List Event),
      (∀ kg ∈ g0, ∀ ev ∈ kg.2, relKey ev = some kg.1) →
      (g0.map Prod.fst).Nodup →
      (∀ kg ∈ g0, kg.2 ≠ []) →
      (∀ ev ∈ o0, relKey ev = none) →
      (∀ kg ∈ (partitionRelatedAux (g0, o0) evs).1, ∀ ev ∈ kg.2,
          relKey ev = some kg.1) ∧
      ((partitionRelatedAux (g0, o0) evs).1.map Prod.fst).Nodup ∧
      (∀ kg ∈ (partitionRelatedAux (g0, o0) evs).1, kg.2 ≠ []) ∧
      (∀ ev ∈ (partitionRelatedAux (g0, o0) evs).2, relKey ev = none) := by
  intro evs
  induction evs with
  | nil =>
    intro g0 o0 h1 h2 h3 h4
    exact ⟨h1, h2, h3, h4⟩
  | cons e es ih =>
    intro g0 o0 h1 h2 h3 h4
    unfold partitionRelatedAux
    cases hk : relKey e with
    | some k =>
      apply ih
      · intro kg hkg ev hev
        obtain ⟨k1, g1⟩ := kg
        rcases mem_assocAppend hkg with ⟨gold, hgold, hcase⟩ | ⟨hkk, hgv⟩
        · rcases hcase with hsame | ⟨hkeq, happ⟩
          · exact h1 (k1, gold) hgold ev (by rw [← hsame]; exact hev)
          · rw [happ] at hev
            rcases List.mem_append.mp hev with hev | hev
            · exact h1 (k1, gold) hgold ev hev
            · simp only [List.mem_singleton] at hev
              rw [hev, hk, hkeq]
        · rw [hgv] at hev
          simp only [List.mem_singleton] at hev
          rw [hev, hk, hkk]
      · rw [keys_assocAppend]
        split
        · exact h2
        · next hany =>
          rw [List.nodup_append]
          refine ⟨h2, List.nodup_singleton k, ?_⟩
          intro a ha hb
          simp only [List.mem_singleton] at hb
          subst hb
          obtain ⟨p, hp, hpa⟩ := List.mem_map.mp ha
          exact hany (List.any_eq_true.mpr ⟨p, hp, by simp [hpa]⟩)
      · intro kg hkg
        obtain ⟨k1, g1⟩ := kg
        rcases mem_assocAppend hkg with ⟨gold, hgold, hcase⟩ | ⟨_, hgv⟩
        · rcases hcase with hsame | ⟨_, happ⟩
          · rw [hsame]
            exact h3 (k1, gold) hgold
          · rw [happ]
            simp
        · rw [hgv]
          simp
      · exact h4
    | none =>
      apply ih
      · exact h1
      · exact h2
      · exact h3
      · intro ev hev
        rcases List.mem_append.mp hev with hev | hev
        · exact h4 ev hev
        · simp only [List.mem_singleton] at hev
          rw [hev, hk]


theorem groupStep_relKey {expand : String → Int → List Int} {g : List Event}
    {k : String} {b : Event} (hcoh : ∀ ev ∈ g, relKey ev = some k)
    (hne : g ≠ []) (h : groupStep expand g = .ok b) : relKey b = some k := by
  cases g with
  | nil => exact absurd rfl hne
  | cons e es =>
    cases es with
    | nil =>
      unfold groupStep at h
      injection h with h'
      rw [← h']
      exact hcoh e (List.mem_cons_self _ _)
    | cons e2 rest =>
      have h' : mergeGroup expand (e :: e2 :: rest) = .ok b := h
      unfold mergeGroup at h'
      simp only [Bind.bind, Except.bind] at h'
      cases hocc : groupOccurrences expand (e :: e2 :: rest) with
      | error err => rw [hocc] at h'; exact Except.noConfusion h'
      | ok occ =>
        simp only [hocc] at h'
        cases hps : pySortedSet occ with
        | error err => rw [hps] at h'; exact Except.noConfusion h'
        | ok ud =>
          simp only [hps] at h'
          injection h' with h'
          rw [← h']
          exact hcoh e (List.mem_cons_self _ _)


theorem mergeGroups_relKeys {expand : String → Int → List Int} :
    ∀ (gs : List (String × List Event)) (merged : List Event),
      mergeGroups expand gs = .ok merged →
      (∀ kg ∈ gs, ∀ ev ∈ kg.2, relKey ev = some kg.1) →
      (∀ kg ∈ gs, kg.2 ≠ []) →
      ∀ b ∈ merged, ∃ kg ∈ gs, relKey b = some kg.1 := by
  intro gs
  induction gs with
  | nil =>
    intro merged h _ _ b hb
    injection h with h
    rw [← h] at hb
    cases hb
  | cons kg1 gs' ih =>
    obtain ⟨k1, g1⟩ := kg1
    intro merged h hcoh hne b hb
    unfold mergeGroups at h
    simp only [Bind.bind, Except.bind] at h
    cases hs1 : groupStep expand g1 with
    | error err => rw [hs1] at h; exact Except.noConfusion h
    | ok b1 =>
      rw [hs1] at h
      cases hs2 : mergeGroups expand gs' with
      | error err => rw [hs2] at h; exact Except.noConfusion h
      | ok merged' =>
        rw [hs2] at h
        injection h with h
        rw [← h] at hb
        rcases List.mem_cons.mp hb with hb | hb
        · refine ⟨(k1, g1), List.mem_cons_self _ _, ?_⟩
          rw [hb]
          exact groupStep_relKey (hcoh (k1, g1) (List.mem_cons_self _ _))
            (hne (k1, g1) (List.mem_cons_self _ _)) hs1
        · obtain ⟨kg, hkg, hrel⟩ := ih merged' hs2
            (fun x hx => hcoh x (List.mem_cons_of_mem _ hx))
            (fun x hx => hne x (List.mem_cons_of_mem _ hx)) b hb
          exact ⟨kg, List.mem_cons_of_mem _ hkg, hrel⟩


theorem mergeGroups_filter {expand : String → Int → List Int} :
    ∀ (gs : List (String × List Event)) (merged : List Event),
      mergeGroups expand gs = .ok merged →
      (∀ kg ∈ gs, ∀ ev ∈ kg.2, relKey ev = some kg.1) →
      (gs.map Prod.fst).Nodup →
      (∀ kg ∈ gs, kg.2 ≠ []) →
      ∀ k g, (k, g) ∈ gs →
        ∃ b, groupStep expand g = .ok b ∧
          merged.filter (fun ev => decide (relKey ev = some k)) = [b] := by
  intro gs
  induction gs with
  | nil =>
    intro merged _ _ _ _ k g hmem
    cases hmem
  | cons kg1 gs' ih =>
    obtain ⟨k1, g1⟩ := kg1
    intro merged h hcoh hnodup hne k g hmem
    unfold mergeGroups at h
    simp only [Bind.bind, Except.bind] at h
    cases hs1 : groupStep expand g1 with
    | error err => rw [hs1] at h; exact Except.noConfusion h
    | ok b1 =>
      rw [hs1] at h
      cases hs2 : mergeGroups expand gs' with
      | error err => rw [hs2] at h; exact Except.noConfusion h
      | ok merged' =>
        rw [hs2] at h
        injection h with h
        simp only [List.map_cons, List.nodup_cons] at hnodup
        rcases List.mem_cons.mp hmem with hmem | hmem
        · injection hmem with hkk hgg
          subst hkk
          subst hgg
          refine ⟨b1, hs1, ?_⟩
          rw [← h, List.filter_cons]
          have hb1 : relKey b1 = some k :=
            groupStep_relKey (hcoh (k, g) (List.mem_cons_self _ _))
              (hne (k, g) (List.mem_cons_self _ _)) hs1
          rw [hb1]
          simp only [decide_eq_true_eq, Option.some.injEq]
          rw [if_pos trivial]
          have : merged'.filter (fun ev => decide (relKey ev = some k)) = [] := by
            apply filter_nil_of
            intro b' hb'
            obtain ⟨kg, hkg, hrel⟩ := mergeGroups_relKeys gs' merged' hs2
              (fun x hx => hcoh x (List.mem_cons_of_mem _ hx))
              (fun x hx => hne x (List.mem_cons_of_mem _ hx)) b' hb'
            rw [hrel]
            simp only [decide_eq_false_iff_not, Option.some.injEq]
            intro hkgk
            exact hnodup.1 (hkgk ▸ List.mem_map.mpr ⟨kg, hkg, rfl⟩)
          rw [this]
        · obtain ⟨b, hstep, hfil⟩ := ih merged' hs2
            (fun x hx => hcoh x (List.mem_cons_of_mem _ hx)) hnodup.2
            (fun x hx => hne x (List.mem_cons_of_mem _ hx)) k g hmem
          refine ⟨b, hstep, ?_⟩
          rw [← h, List.filter_cons]
          have hb1 : relKey b1 = some k1 :=
            groupStep_relKey (hcoh (k1, g1) (List.mem_cons_self _ _))
              (hne (k1, g1) (List.mem_cons_self _ _)) hs1
          have hkne : ¬(relKey b1 = some k) := by
            rw [hb1]
            simp only [Option.some.injEq]
            intro hk1k
            exact hnodup.1 (by
              rw [hk1k]
              exact List.mem_map.mpr ⟨(k, g), hmem, rfl⟩)
          have hd : decide (relKey b1 = some k) = false := by
            simp [hkne]
          rw [hd]
          simp only [Bool.false_eq_true, if_false]
          exact hfil


theorem merge_decomp {expand : String → Int → List Int} {evs out : List Event}
    (h : merge_recurring_sets expand evs = .ok out) :
    ∃ merged, mergeGroups expand (partitionRelated evs).1 = .ok merged ∧
      out = (partitionRelated evs).2 ++ merged := by
  unfold merge_recurring_sets at h
  rcases hpr : partitionRelated evs with ⟨grouped, others⟩
  rw [hpr] at h
  simp only [Bind.bind, Except.bind] at h
  cases hmg : mergeGroups expand grouped with
  | error err => rw [hmg] at h; exact Except.noConfusion h
  | ok merged =>
    rw [hmg] at h
    injection h with h
    exact ⟨merged, rfl, h.symm⟩


theorem pySortedSet_uniform {l : List (OccClass × Int)} (h : classUniform l = true) :
    pySortedSet l = .ok (sortedDedup (l.map Prod.snd)) := by
  unfold pySortedSet
  rw [h]
  rfl


theorem pySortedSet_mixed {l : List (OccClass × Int)} (h : classUniform l = false) :
    pySortedSet l = .error .typeError := by
  unfold pySortedSet
  rw [h]
  rfl


theorem mergeGroup_cons {expand : String → Int → List Int} {h0 : Event}
    {grest : List Event} {b : Event}
    (h : mergeGroup expand (h0 :: grest) = .ok b) :
    ∃ occ, groupOccurrences expand (h0 :: grest) = .ok occ ∧
      classUniform occ = true ∧
      b = { h0 with
            rrule := none
            sequence := none
            rdate := h0.rdate ++ [sortedDedup (occ.map Prod.snd)] } := by
  unfold mergeGroup at h
  simp only [Bind.bind, Except.bind] at h
  cases hocc : groupOccurrences expand (h0 :: grest) with
  | error err => rw [hocc] at h; exact Except.noConfusion h
  | ok occ =>
    simp only [hocc] at h
    cases hps : pySortedSet occ with
    | error err => rw [hps] at h; exact Except.noConfusion h
    | ok ud =>
      have hcu : classUniform occ = true := by
        cases hcuv : classUniform occ with
        | true => rfl
        | false =>
          rw [pySortedSet_mixed hcuv] at hps
          exact Except.noConfusion hps
      have hud : ud = sortedDedup (occ.map Prod.snd) := by
        rw [pySortedSet_uniform hcu] at hps
        injection hps with h'
        exact h'.symm
      simp only [hps] at h
      injection h with h
      refine ⟨occ, rfl, hcu, ?_⟩
      rw [← h, hud]


theorem mergeGroups_error_of_mem {expand : String → Int → List Int} :
    ∀ (gs : List (String × List Event)) (k : String) (g : List Event) (err : PyErr),
      (k, g) ∈ gs → groupStep expand g = .error err →
      ∃ e, mergeGroups expand gs = .error e := by
  intro gs
  induction gs with
  | nil =>
    intro k g err hmem _
    cases hmem
  | cons kg1 gs' ih =>
    obtain ⟨k1, g1⟩ := kg1
    intro k g err hmem hstep
    unfold mergeGroups
    simp only [Bind.bind, Except.bind]
    rcases List.mem_cons.mp hmem with hmem | hmem
    · injection hmem with hkk hgg
      subst hgg
      rw [hstep]
      exact ⟨err, rfl⟩
    · cases hs1 : groupStep expand g1 with
      | error e1 => exact ⟨e1, rfl⟩
      | ok b1 =>
        obtain ⟨e', he'⟩ := ih k g err hmem hstep
        rw [he']
        exact ⟨e', rfl⟩


theorem groupStep_error_mixed {expand : String → Int → List Int} {h0 g1 : Event}
    {grest : List Event} {occ : List (OccClass × Int)}
    (hocc : groupOccurrences expand (h0 :: g1 :: grest) = .ok occ)
    (hcu : classUniform occ = false) :
    groupStep expand (h0 :: g1 :: grest) = .error .typeError := by
  show mergeGroup expand (h0 :: g1 :: grest) = .error .typeError
  unfold mergeGroup
  simp only [Bind.bind, Except.bind]
  simp only [hocc]
  simp only [pySortedSet_mixed hcu]


theorem merge_error_of_groups {expand : String → Int → List Int}
    {evs : List Event} {grouped : List (String × List Event)}
    {others : List Event} {err : PyErr}
    (hpr : partitionRelated evs = (grouped, others))
    (h : mergeGroups expand grouped = .error err) :
    merge_recurring_sets expand evs = .error err := by
  unfold merge_recurring_sets
  rw [hpr]
  simp only [Bind.bind, Except.bind]
  rw [h]


/-- C1-claim, amended: for every linkage group of size ≥ 2 whose pooled
occurrences are uniformly comparable, the merger emits exactly one event
carrying that linkage key — the first member encountered, with RRULE and
SEQUENCE removed and a *further* additional-occurrence line appended (any
pre-existing RDATE lines of the representative are retained); the appended
line is the strictly ascending (hence deduplicated) enumeration of the union
of each member's occurrences: the expansion of its rule from its own start
if it has one, else its own start.  A group whose pool mixes comparison
classes (naive with aware datetimes, or dates with datetimes — a rule
expansion from a date start yields naive datetimes) instead raises and the
request aborts with an uncaught exception. -/
theorem merge_group_emits_single_representative :
    (∀ (expand : String → Int → List Int) (evs out : List Event) (k : String)
       (g : List Event) (h0 : Event) (grest : List Event),
      merge_recurring_sets expand evs = .ok out →
      (k, g) ∈ (partitionRelated evs).1 →
      g = h0 :: grest → 2 ≤ g.length →
      ∃ occ, groupOccurrences expand g = .ok occ ∧
        classUniform occ = true ∧
        out.filter (fun ev => decide (relKey ev = some k))
          = [{ h0 with
               rrule := none
               sequence := none
               rdate := h0.rdate ++ [sortedDedup (occ.map Prod.snd)] }] ∧
        List.Pairwise (· < ·) (sortedDedup (occ.map Prod.snd)) ∧
        (∀ x, x ∈ sortedDedup (occ.map Prod.snd) ↔ x ∈ occ.map Prod.snd) ∧
        (∀ p, p ∈ occ ↔ ∃ ev ∈ g, ∃ l,
          memberOccurrences expand ev = .ok l ∧ p ∈ l)) ∧
    (∀ (expand : String → Int → List Int) (evs : List Event) (k : String)
       (g : List Event) (h0 g1 : Event) (grest : List Event)
       (occ : List (OccClass × Int)),
      (k, g) ∈ (partitionRelated evs).1 →
      g = h0 :: g1 :: grest →
      groupOccurrences expand g = .ok occ →
      classUniform occ = false →
      ∃ err, merge_recurring_sets expand evs = .error err) := by
  constructor
  · intro expand evs out k g h0 grest h hg hcons hlen
    obtain ⟨merged, hmg, hout⟩ := merge_decomp h
    obtain ⟨hcoh, hnodup, hne, hothers⟩ :=
      partitionRelatedAux_inv evs [] [] (by simp) (by simp) (by simp) (by simp)
    obtain ⟨b, hstep, hfil⟩ :=
      mergeGroups_filter (partitionRelated evs).1 merged hmg hcoh hnodup hne k g hg
    cases grest with
    | nil =>
      rw [hcons] at hlen
      simp at hlen
    | cons g1 rest =>
      rw [hcons] at hstep
      have hstep' : mergeGroup expand (h0 :: g1 :: rest) = .ok b := hstep
      obtain ⟨occ, hocc, hcu, hb⟩ := mergeGroup_cons hstep'
      refine ⟨occ, by rw [hcons]; exact hocc, hcu, ?_,
        sortedDedup_sorted (occ.map Prod.snd),
        fun x => mem_sortedDedup (occ.map Prod.snd) x, ?_⟩
      · rw [hout, List.filter_append]
        have hothersnil : (partitionRelated evs).2.filter
            (fun ev => decide (relKey ev = some k)) = [] := by
          apply filter_nil_of
          intro ev hev
          rw [hothers ev hev]
          simp
        rw [hothersnil, List.nil_append, hfil, hb]
      · intro p
        rw [hcons]
        exact groupOccurrences_decomp _ occ hocc p
  · intro expand evs k g h0 g1 grest occ hg hcons hocc hcu
    subst hcons
    rcases hpr : partitionRelated evs with ⟨grouped, others⟩
    have hg' : (k, h0 :: g1 :: grest) ∈ grouped := by
      have hx := hg
      rw [hpr] at hx
      exact hx
    obtain ⟨e', he'⟩ := mergeGroups_error_of_mem grouped k (h0 :: g1 :: grest)
      .typeError hg' (groupStep_error_mixed hocc hcu)
    exact ⟨e', merge_error_of_groups hpr he'⟩


theorem uid_canonicalization_pure_witness :
    cfgU.makeUnique = true ∧ eU.uid = some "evt-42" ∧
    transformEvent cfgU 0 0 eU = .ok (some evU) ∧
    evU.uid = some (create_uid (idStr cfgU.id ++ "-" ++ "evt-42")) :=
  ⟨rfl, rfl, rfl,
   uid_canonicalization_pure.2.1 cfgU 0 0 eU evU "evt-42" rfl rfl rfl⟩


theorem dedup_last_wins_witness :
    cfgD.filterDuplicates = true ∧
    runSources none none 0 0 srcsD 0 {} [] = ([0], .ok (.done accD)) ∧
    ((outputTagged accD).countP
        (fun p => decide (p.1 = 0) && decide (p.2.uid = some guidW)) ≤ 1 ∧
     ∀ p ∈ outputTagged accD, p.1 = 0 → p.2.uid = some guidW →
       ∃ kl, transKept cfgD 0 0 [e1D, e2D] = .ok kl ∧ lastWith guidW kl = some p.2) :=
  ⟨rfl, rfl,
   dedup_last_wins.1 none none 0 0 srcsD [0] accD 0 cfgD [e1D, e2D] guidW
     rfl (by decide) rfl⟩


theorem retention_window_boundary_witness :
    (0 : Int) < 10 ∧
    (transformEvent {} 100 10 eR = .ok none ↔ (90 : Int) < 100 - 10) ∧
    transformEvent {} 100 10 { eR with dtend := some (.dateOnly 89) } = .ok none ∧
    transformEvent {} 100 10 eRr ≠ .ok none :=
  ⟨by decide,
   retention_window_boundary.1 {} 100 10 eR (.dateOnly 90) 90 (by decide) rfl rfl rfl,
   rfl,
   retention_window_boundary.2 {} 100 10 eRr (.dateOnly 50) 50 "FREQ=DAILY"
     (by decide) rfl rfl rfl⟩


/-- C5 as stated is false: this kept event has an unclassifiable start yet is
emitted (it carries an end, so the drop branch is never reached). -/
theorem unclassifiable_start_emitted_counterexample :
    startUnclassifiable eC5.dtstart = true ∧
    transformEvent {} 0 0 eC5 = .ok (some eC5) :=
  ⟨rfl, rfl⟩


theorem emitted_events_end_resolvable_amended_witness :
    startUnclassifiable (some TimeVal.other) = true ∧
    transformEvent {} 0 0 ({ dtstart := some .other } : Event) = .ok none :=
  ⟨rfl, emitted_events_end_resolvable_amended.2 {} 0 0 { dtstart := some .other }
    rfl rfl rfl⟩


/-- C6 as stated is false: the fixed duration is written to DURATION, but the
prior DTEND is not removed — it stays on the emitted event. -/
theorem fixed_duration_keeps_prior_end_counterexample :
    transformEvent cfgF 0 0 eF = .ok (some { eF with duration := some 30 }) ∧
    ({ eF with duration := some 30 } : Event).dtend = some (.dateTime 60 none) :=
  ⟨rfl, rfl⟩


theorem fixed_duration_sets_duration_amended_witness :
    isDT eF.dtstart = true ∧
    (({ eF with duration := some 30 } : Event).duration = some 30 ∧
     ({ eF with duration := some 30 } : Event).dtend = eF.dtend.map normTime) :=
  ⟨rfl, fixed_duration_sets_duration_amended cfgF 0 0 eF
    { eF with duration := some 30 } 30 rfl rfl rfl rfl⟩


/-- C7 as stated is false for a source that also fixes a duration: the event
originally lasting 30 minutes comes out with 15 (fixed 10 + pad 5), not
30 + 5. -/
theorem padding_original_duration_counterexample :
    transformEvent cfgP 0 0 eP = .ok (some evP) ∧
    evP.duration = some 15 ∧ (15 : Int) ≠ 30 + 5 :=
  ⟨rfl, rfl, by decide⟩


theorem padding_shifts_start_amended_witness :
    cfgPw.padStartMinutes = some 5 ∧
    (∃ e1 d1, durationStep cfgPw ePe = some e1 ∧
      effDuration { e1 with dtstart := some (.dateTime (0 - 5) none) } = .ok d1 ∧
      evPe.dtstart = some (normTime (.dateTime (0 - 5) none)) ∧
      evPe.duration = some (d1 + 5) ∧
      (∀ d, e1.duration = some d → evPe.duration = some (d + 5)) ∧
      (∀ d0, e1.duration = none → effDuration e1 = .ok d0 →
        evPe.duration = some (d0 + 5 + 5))) :=
  ⟨rfl, padding_shifts_start_amended.1 cfgPw 0 0 ePe evPe 5 0 none rfl rfl rfl⟩


/-- C8 as stated is false about the status class: the abort carries HTTP 500,
which is not a client-error (4xx) status. -/
theorem both_params_status_counterexample :
    get_cal (some [1]) (some [2]) 0 0 expand0 []
      = ([], .ok (.err .invalidParams 500)) ∧
    isClientError 500 = false :=
  ⟨rfl, rfl⟩


theorem both_params_abort_amended_witness :
    (some [1] : Option (List Int)).isSome = true ∧
    get_cal (some [1]) (some [2]) 0 0 expand0 []
      = ([], .ok (.err .invalidParams 500)) :=
  ⟨rfl, both_params_abort_amended (some [1]) (some [2]) 0 0 expand0 [] [1] [2] rfl rfl⟩


/-- C9 as stated is false: with a valid source configured before the
identifier-less one, the configuration error is still returned, but only
after the first source has been fetched (fetch trace [0] ≠ []). -/
theorem config_error_after_fetch_counterexample :
    get_cal none none 0 0 expand0 srcsC9
      = ([0], .ok (.err .configError 500)) ∧
    ([0] : List Nat) ≠ [] :=
  ⟨rfl, by decide⟩


theorem config_error_at_reach_amended_witness :
    (({} : SourceCfg).id = none) ∧
    (get_cal none none 0 0 expand0
        ([({ id := some 1 }, .events [])] ++ (({} : SourceCfg), FetchOutcome.events []) :: [])
      = ([0], .ok (.err .configError 500)) ∧
     (∀ t ∈ ([0] : List Nat),
        t < [(({ id := some 1 } : SourceCfg), FetchOutcome.events [])].length) ∧
     ([(({ id := some 1 } : SourceCfg), FetchOutcome.events [])] = [] →
        ([0] : List Nat) = [])) :=
  ⟨rfl, config_error_at_reach_amended none none 0 0 expand0
    [({ id := some 1 }, .events [])] [] {} (.events []) [0] {} rfl rfl rfl⟩


theorem prefix_missing_summary_raises_witness :
    cfgX.summaryPrefix = some "Work" ∧ eX.summary = none ∧
    get_cal none none 0 0 expand0 [(cfgX, .events [eX])] = ([0], .error .keyError) :=
  ⟨rfl, rfl,
   prefix_missing_summary_raises.2 cfgX 0 0 eX { eX with duration := some 5 }
     { eX with duration := some 5 } "Work" 1 expand0 rfl rfl rfl rfl
     (by decide) rfl⟩


/-- C1 as stated is false when the representative already carries an RDATE
line: the emitted event keeps the old line [[99]] in addition to the merged
union line, so its additional-occurrence set is not equal to the union. -/
theorem merge_rdate_not_only_union_counterexample :
    merge_recurring_sets expand0 [eM1, eM2]
      = .ok [{ eM1 with rdate := [[99], [0, 10]] }] ∧
    ({ eM1 with rdate := [[99], [0, 10]] } : Event).rdate ≠ [sortedDedup [0, 10]] :=
  ⟨rfl, by decide⟩


theorem merge_group_emits_single_representative_witness :
    (2 ≤ ([eN1, eN2] : List Event).length ∧
     (∃ occ, groupOccurrences expand0 [eN1, eN2] = .ok occ ∧
       classUniform occ = true ∧
       ([mergedN] : List Event).filter (fun ev => decide (relKey ev = some "r"))
         = [{ eN1 with
              rrule := none
              sequence := none
              rdate := eN1.rdate ++ [sortedDedup (occ.map Prod.snd)] }] ∧
       List.Pairwise (· < ·) (sortedDedup (occ.map Prod.snd)) ∧
       (∀ x, x ∈ sortedDedup (occ.map Prod.snd) ↔ x ∈ occ.map Prod.snd) ∧
       (∀ p, p ∈ occ ↔ ∃ ev ∈ ([eN1, eN2] : List Event), ∃ l,
         memberOccurrences expand0 ev = .ok l ∧ p ∈ l))) ∧
    (classUniform [(OccClass.naiveC, 5), (OccClass.awareC, 5 - 60)] = false ∧
     ∃ err, merge_recurring_sets expand0 [eY1, eY2] = .error err) :=
  ⟨⟨by decide,
    merge_group_emits_single_representative.1 expand0 [eN1, eN2] [mergedN] "r"
      [eN1, eN2] eN1 [eN2] rfl (by decide) rfl (by decide)⟩,
   ⟨rfl,
    merge_group_emits_single_representative.2 expand0 [eY1, eY2] "m"
      [eY1, eY2] eY1 eY2 [] [(OccClass.naiveC, 5), (OccClass.awareC, 5 - 60)]
      (by decide) rfl rfl rfl⟩⟩

